import Mathlib

/-!
# Verification of the rule-normalization engine

A shallow embedding of `.github/scripts/process_rules.py` (repository
KuGouGo/Rules): line classification, redundancy filtering of domain rules,
deterministic ordering, header generation and dual-format serialization.

Strings are modelled as `String` / `List Char`; Python sets are modelled as
duplicate-free `List String` built with a membership-checked insert, and every
observation of a set in the source goes through sorting or membership, so the
internal list order is never observable.  Python's regexes are modelled as
executable functions on `List Char` that follow the backtracking semantics of
each concrete pattern in the source.
-/

namespace RulesEngine

/-! ## Character classes and list utilities -/

/-- The character class `[,\s]` used by the separator of `RULE_TYPE_REGEX`. -/
def sepChar (c : Char) : Bool := c == ',' || c.isWhitespace

/-- The character class `[^#\s]` used by the value group of `RULE_TYPE_REGEX`. -/
def valChar (c : Char) : Bool := !c.isWhitespace && c != '#'

/-- Lexicographic (code-point) `≤` on character lists; Python's string order. -/
def lexLe : List Char → List Char → Bool
  | [], _ => true
  | _ :: _, [] => false
  | a :: as, b :: bs => if a < b then true else if b < a then false else lexLe as bs

/-- Python's `<=` on strings (lexicographic by code point). -/
def strLE (a b : String) : Prop := lexLe a.data b.data = true

instance : DecidableRel strLE := fun a b => by unfold strLE; infer_instance

/-- Python `str.strip()`: drop whitespace from both ends. -/
def trimChars (cs : List Char) : List Char :=
  ((cs.dropWhile Char.isWhitespace).reverse.dropWhile Char.isWhitespace).reverse

/-- Helper for `splitlines`. -/
def splitlinesAux : List Char → List Char → List (List Char)
  | [], acc => if acc.isEmpty then [] else [acc.reverse]
  | '\n' :: rest, acc => acc.reverse :: splitlinesAux rest []
  | '\r' :: '\n' :: rest, acc => acc.reverse :: splitlinesAux rest []
  | '\r' :: rest, acc => acc.reverse :: splitlinesAux rest []
  | c :: rest, acc => splitlinesAux rest (c :: acc)

/-- Python `str.splitlines()` (restricted to the `\n`, `\r\n`, `\r` terminators). -/
def splitlines (cs : List Char) : List (List Char) := splitlinesAux cs []

/-- Helper for `splitOnCh`. -/
def splitOnAux (sep : Char) : List Char → List Char → List (List Char)
  | [], acc => [acc.reverse]
  | c :: rest, acc =>
    if c = sep then acc.reverse :: splitOnAux sep rest []
    else splitOnAux sep rest (c :: acc)

/-- Python `str.split(sep)` for a single-character separator. -/
def splitOnCh (sep : Char) (cs : List Char) : List (List Char) := splitOnAux sep cs []

/-- Python newline-join of a list of lines. -/
def interNL (ls : List (List Char)) : List Char :=
  match ls with
  | [] => []
  | l :: rest => l ++ (rest.map (fun m => '\n' :: m)).flatten

/-- The decimal digit character for `n < 10`. -/
def digitChar (n : Nat) : Char := Char.ofNat (48 + n)

/-- Python `str(n)` for a natural number: standard decimal digits. -/
def natToChars (n : Nat) : List Char :=
  if h : n < 10 then [digitChar n]
  else
    have : n / 10 < n := Nat.div_lt_self (by omega) (by omega)
    natToChars (n / 10) ++ [digitChar (n % 10)]

/-- Literal-prefix test (used for the anchored literal `# NAME:`). -/
def chPrefix : List Char → List Char → Bool
  | [], _ => true
  | _ :: _, [] => false
  | p :: ps, c :: cs => p == c && chPrefix ps cs

/-! ## Model of `RULE_TYPE_REGEX`'s separator-and-value tail `[,\s]+([^#\s]+)`

The separator run is greedy and backtracks one character at a time, after
which the value group takes the maximal run of `[^#\s]` characters. -/

/-- The value group `([^#\s]+)`: the maximal nonempty run of value chars. -/
def grabVal (cs : List Char) : Option (List Char) :=
  let r := cs.takeWhile valChar
  if r.isEmpty then none else some r

/-- State after at least one separator char was consumed: greedily consume more
separators, backtracking into the value group on failure. -/
def afterSep : List Char → Option (List Char)
  | [] => none
  | c :: rest =>
    if sepChar c then
      match afterSep rest with
      | some v => some v
      | none => grabVal (c :: rest)
    else grabVal (c :: rest)

/-- Prefix-match `[,\s]+([^#\s]+)`, returning the captured value group. -/
def sepVal : List Char → Option (List Char)
  | [] => none
  | c :: rest => if sepChar c then afterSep rest else none

/-- Case-insensitive literal keyword match, returning the rest of the input. -/
def stripKind : List Char → List Char → Option (List Char)
  | [], cs => some cs
  | _ :: _, [] => none
  | k :: ks, c :: cs => if c.toLower == k.toLower then stripKind ks cs else none

/-! ## Model of `DOMAIN_ONLY_REGEX`, `IPV4_REGEX` and `IPV6_REGEX` -/

/-- The class `[a-zA-Z0-9.-]` of `DOMAIN_ONLY_REGEX`. -/
def domNameChar (c : Char) : Bool := c.isAlphanum || c == '.' || c == '-'

/-- Full match of `^[a-zA-Z0-9.-]+\.[a-zA-Z]{2,}$`: some split at a literal dot
with a nonempty name part before and at least two letters after. -/
def domainOnly (cs : List Char) : Bool :=
  (List.range cs.length).any fun i =>
    !(cs.take i).isEmpty && (cs.take i).all domNameChar && (cs.get? i == some '.')
      && decide (2 ≤ (cs.drop (i + 1)).length) && (cs.drop (i + 1)).all Char.isAlpha

/-- One octet: `25[0-5]|2[0-4][0-9]|[01]?[0-9][0-9]?`. -/
def isOctet (p : List Char) : Bool :=
  match p with
  | [a] => a.isDigit
  | [a, b] => a.isDigit && b.isDigit
  | [a, b, c] =>
    (a == '2' && b == '5' && (decide ('0' ≤ c) && decide (c ≤ '5')))
      || (a == '2' && (decide ('0' ≤ b) && decide (b ≤ '4')) && c.isDigit)
      || ((a == '0' || a == '1') && b.isDigit && c.isDigit)
  | _ => false

/-- IPv4 prefix length: `3[0-2]|[12]?[0-9]`. -/
def isPre32 (p : List Char) : Bool :=
  match p with
  | [a] => a.isDigit
  | [a, b] =>
    (a == '3' && (b == '0' || b == '1' || b == '2')) || ((a == '1' || a == '2') && b.isDigit)
  | _ => false

/-- A dotted quad `(octet\.){3}octet`. -/
def isQuad (cs : List Char) : Bool :=
  match splitOnCh '.' cs with
  | [a, b, c, d] => isOctet a && isOctet b && isOctet c && isOctet d
  | _ => false

/-- Full match of `IPV4_REGEX` (dotted quad with optional `/0-32` suffix). -/
def isIPv4 (cs : List Char) : Bool :=
  match splitOnCh '/' cs with
  | [addr] => isQuad addr
  | [addr, p] => isQuad addr && isPre32 p
  | _ => false

/-- A hexadecimal digit `[0-9a-fA-F]`. -/
def hexDigit (c : Char) : Bool :=
  c.isDigit || (decide ('a' ≤ c) && decide (c ≤ 'f')) || (decide ('A' ≤ c) && decide (c ≤ 'F'))

/-- A group `[0-9a-fA-F]{1,4}`. -/
def isHexGroup (g : List Char) : Bool := !g.isEmpty && decide (g.length ≤ 4) && g.all hexDigit

/-- IPv6 prefix length: `12[0-8]|1[01][0-9]|[1-9]?[0-9]`. -/
def isPre128 (p : List Char) : Bool :=
  match p with
  | [a] => a.isDigit
  | [a, b] => (decide ('1' ≤ a) && decide (a ≤ '9')) && b.isDigit
  | [a, b, c] =>
    (a == '1' && b == '2' && (decide ('0' ≤ c) && decide (c ≤ '8')))
      || (a == '1' && (b == '0' || b == '1') && c.isDigit)
  | _ => false

/-- The three address alternatives of `IPV6_REGEX`:
`(h{1,4}:){7}h{1,4}`, `::(h{1,4}:){0,6}h{1,4}` and `(h{1,4}:){1,7}:`. -/
def isV6Addr (addr : List Char) : Bool :=
  let parts := splitOnCh ':' addr
  (parts.length == 8 && parts.all isHexGroup)
    || (match parts with
        | [] :: [] :: gs => !gs.isEmpty && decide (gs.length ≤ 7) && gs.all isHexGroup
        | _ => false)
    || (match parts.reverse with
        | [] :: [] :: rev => !rev.isEmpty && decide (rev.length ≤ 7) && rev.all isHexGroup
        | _ => false)

/-- Full match of `IPV6_REGEX` (each alternative with optional `/0-128`). -/
def isIPv6 (cs : List Char) : Bool :=
  match splitOnCh '/' cs with
  | [addr] => isV6Addr addr
  | [addr, p] => isV6Addr addr && isPre128 p
  | _ => false

/-! ## Model of `HEADER_REGEX` and `_load_content` -/

/-- The literal `# NAME:`. -/
def nameTag : List Char := ['#', ' ', 'N', 'A', 'M', 'E', ':']

/-- Number of characters consumed by the lazy `.*?` of
`^# NAME:.*?(?=\n[^#]|\Z)` (DOTALL): stop at the first position whose next two
characters are a newline and a non-`#`, or at the end of the input. -/
def lazyEnd : List Char → Nat
  | [] => 0
  | [_] => 1
  | c :: d :: rest => if c = '\n' ∧ d ≠ '#' then 0 else 1 + lazyEnd (d :: rest)

/-- `HEADER_REGEX.search`: scan for the first line start carrying the literal
`# NAME:`; return the length of `group(0)` of the match found there. -/
def headerSearchAux : List Char → Bool → Option Nat
  | [], _ => none
  | c :: rest, atStart =>
    if atStart && chPrefix nameTag (c :: rest) then
      some (7 + lazyEnd ((c :: rest).drop 7))
    else headerSearchAux rest (c == '\n')

/-- `_load_content` on in-memory text: when the header regex matches, drop a
prefix of the content of the match's length (`content[len(match.group(0)):]`)
and then strip leading newlines (`.lstrip('\n')`). -/
def loadChars (cs : List Char) : List Char :=
  match headerSearchAux cs true with
  | some n => (cs.drop n).dropWhile (· == '\n')
  | none => cs

/-! ## Rule kinds -/

/-- The closed rule-kind enumeration `TYPE_ORDER`. -/
inductive RuleType where
  | DOMAIN
  | DOMAIN_KEYWORD
  | DOMAIN_SUFFIX
  | IP_CIDR
  | IP_CIDR6
deriving DecidableEq

/-- `TYPE_ORDER`, the canonical kind order (also the regex alternation order). -/
def TYPE_ORDER : List RuleType :=
  [.DOMAIN, .DOMAIN_KEYWORD, .DOMAIN_SUFFIX, .IP_CIDR, .IP_CIDR6]

/-- The textual form of a kind. -/
def typeChars : RuleType → List Char
  | .DOMAIN => ['D', 'O', 'M', 'A', 'I', 'N']
  | .DOMAIN_KEYWORD => ['D', 'O', 'M', 'A', 'I', 'N', '-', 'K', 'E', 'Y', 'W', 'O', 'R', 'D']
  | .DOMAIN_SUFFIX => ['D', 'O', 'M', 'A', 'I', 'N', '-', 'S', 'U', 'F', 'F', 'I', 'X']
  | .IP_CIDR => ['I', 'P', '-', 'C', 'I', 'D', 'R']
  | .IP_CIDR6 => ['I', 'P', '-', 'C', 'I', 'D', 'R', '6']

/-- `JSON_MAP`: the JSON field name of each kind. -/
def jsonKey : RuleType → String
  | .DOMAIN => "domain"
  | .DOMAIN_KEYWORD => "domain_keyword"
  | .DOMAIN_SUFFIX => "domain_suffix"
  | .IP_CIDR => "ip_cidr"
  | .IP_CIDR6 => "ip_cidr"

/-- One alternative of `RULE_TYPE_REGEX`: the keyword (case-insensitive),
then `[,\s]+([^#\s]+)`. -/
def tryType (t : RuleType) (cs : List Char) : Option (RuleType × List Char) :=
  match stripKind (typeChars t) cs with
  | some rest => (sepVal rest).map (fun v => (t, v))
  | none => none

/-- `RULE_TYPE_REGEX.match`: alternatives tried in `TYPE_ORDER` order. -/
def typedMatch (cs : List Char) : Option (RuleType × List Char) :=
  TYPE_ORDER.findSome? (fun t => tryType t cs)

/-- The kinds whose values are lower-cased by `_parse_line`. -/
def domainKind : RuleType → Bool
  | .DOMAIN | .DOMAIN_KEYWORD | .DOMAIN_SUFFIX => true
  | _ => false

/-- `_parse_line`. -/
def parseLine (line : String) : Option (RuleType × String) :=
  let l := trimChars line.data
  if l.isEmpty then none
  else if l.head? == some '#' then none
  else
    match typedMatch l with
    | some (t, rawv) =>
      let v := trimChars rawv
      if v.isEmpty then none
      else if domainKind t then some (t, ⟨v.map Char.toLower⟩)
      else if t = .IP_CIDR then
        if isIPv6 v then some (.IP_CIDR6, ⟨v⟩)
        else if isIPv4 v then some (.IP_CIDR, ⟨v⟩)
        else none
      else some (t, ⟨v⟩)
    | none =>
      if domainOnly l then some (.DOMAIN, ⟨l.map Char.toLower⟩)
      else if isIPv4 l then some (.IP_CIDR, ⟨l⟩)
      else if isIPv6 l then some (.IP_CIDR6, ⟨l⟩)
      else none

/-! ## The rule-set state (`rules_data`) -/

/-- Python `set.add`: insert unless present (list kept duplicate-free). -/
def sinsert (v : String) (l : List String) : List String :=
  if v ∈ l then l else l ++ [v]

/-- `rules_data[rule_type].add(value)`. -/
def addRule (rd : RuleType → List String) (t : RuleType) (v : String) :
    RuleType → List String :=
  fun t' => if t' = t then sinsert v (rd t') else rd t'

/-- One step of the classification loop of `_process_single_file`:
either add the parsed rule or count the line as invalid. -/
def classifyStep (acc : (RuleType → List String) × Nat) (lcs : List Char) :
    (RuleType → List String) × Nat :=
  match parseLine ⟨lcs⟩ with
  | some (t, v) => (addRule acc.1 t v, acc.2)
  | none =>
    if !(trimChars lcs).isEmpty && ((trimChars lcs).head? != some '#') then
      (acc.1, acc.2 + 1)
    else acc

/-- The classification loop over `content.splitlines()`. -/
def classifyContent (content : String) : (RuleType → List String) × Nat :=
  (splitlines content.data).foldl classifyStep (fun _ => [], 0)

/-! ## The redundancy filter -/

/-- `value.split('.')`: the dotted labels of a value. -/
def labelParts (s : String) : List (List Char) := splitOnCh '.' s.data

/-- Number of dotted labels. -/
def labelCnt (s : String) : Nat := (labelParts s).length

/-- The sort key order `key=lambda s: (len(s.split('.')), s)`. -/
def keyLE (a b : String) : Prop :=
  labelCnt a < labelCnt b ∨ (labelCnt a = labelCnt b ∧ strLE a b)

instance : DecidableRel keyLE := fun a b => by unfold keyLE strLE; infer_instance

/-- `suffix` is redundant given surviving `existing`
(strictly more labels, and ends with all of `existing`'s labels). -/
def suffixRed (s e : String) : Prop :=
  (labelParts e).length < (labelParts s).length ∧
    (labelParts s).drop ((labelParts s).length - (labelParts e).length) = labelParts e

instance (s e : String) : Decidable (suffixRed s e) := by unfold suffixRed; infer_instance

/-- A `DOMAIN` value `d` is covered by a `DOMAIN-SUFFIX` value `s`
(at least as many labels, ending with all of `s`'s labels). -/
def coversDom (s d : String) : Prop :=
  (labelParts s).length ≤ (labelParts d).length ∧
    (labelParts d).drop ((labelParts d).length - (labelParts s).length) = labelParts s

instance (s d : String) : Decidable (coversDom s d) := by unfold coversDom; infer_instance

/-- The body of the loop of `_filter_redundant_suffixes`. -/
def suffixStep (acc : List String) (s : String) : List String :=
  if acc.any (fun e => decide (suffixRed s e)) then acc else sinsert s acc

/-- `_filter_redundant_suffixes`. -/
def filterRedundantSuffixes (suffixes : List String) : List String :=
  if suffixes.length ≤ 1 then suffixes
  else (List.insertionSort keyLE suffixes).foldl suffixStep []

/-- `_deduplicate_domains`. -/
def dedupDomains (domains suffixes : List String) : List String :=
  if domains.isEmpty || suffixes.isEmpty then domains
  else domains.filter (fun d => !(suffixes.any (fun s => decide (coversDom s d))))

/-- The filtering stage of `_process_single_file` (lines 213–225): filter the
`DOMAIN-SUFFIX` set against itself, then the `DOMAIN` set against the filtered
suffixes; all other kinds are left as they are. -/
def filterStage (rd : RuleType → List String) : RuleType → List String :=
  let ds :=
    if !(rd .DOMAIN_SUFFIX).isEmpty then filterRedundantSuffixes (rd .DOMAIN_SUFFIX)
    else rd .DOMAIN_SUFFIX
  let dm :=
    if !(rd .DOMAIN).isEmpty && !(rd .DOMAIN_SUFFIX).isEmpty then
      dedupDomains (rd .DOMAIN) ds
    else rd .DOMAIN
  fun t =>
    match t with
    | .DOMAIN => dm
    | .DOMAIN_SUFFIX => ds
    | t' => rd t'

/-! ## Output stage -/

/-- `sorted(values)` per kind (empty for a kind with no rules). -/
def sortedRulesOf (rd : RuleType → List String) : RuleType → List String :=
  fun t => List.insertionSort strLE (rd t)

/-- `stats`: per-kind counts of the final rule set. -/
def statsOf (rd : RuleType → List String) : RuleType → Nat :=
  fun t => (sortedRulesOf rd t).length

/-- The whole in-memory pipeline applied to raw file text. -/
def loadContent (raw : String) : String := ⟨loadChars raw.data⟩

/-- `rules_data` built from raw file text. -/
def rulesDataOf (raw : String) : RuleType → List String :=
  (classifyContent (loadContent raw)).1

/-- The invalid-line count of a processing run. -/
def invalidCountOf (raw : String) : Nat := (classifyContent (loadContent raw)).2

/-- The final rule set (after the redundancy filter). -/
def finalRulesOf (raw : String) : RuleType → List String :=
  filterStage (rulesDataOf raw)

/-- The final rule set, sorted per kind (`sorted_rules`). -/
def finalSortedOf (raw : String) : RuleType → List String :=
  sortedRulesOf (finalRulesOf raw)

/-- The count line `# {rule_type}: {count}`. -/
def countChars (t : RuleType) (n : Nat) : List Char :=
  ['#', ' '] ++ typeChars t ++ [':', ' '] ++ natToChars n

/-- The header lines of `_generate_header` (without the trailing empty line):
name, author, repo, timestamp, per-kind counts for positive counts in canonical
order, and the total of the displayed counts. -/
def headerLinesOf (name now : String) (stats : RuleType → Nat) : List (List Char) :=
  [nameTag ++ (' ' :: name.data),
   ('#' :: " AUTHOR: KuGouGo".data),
   ('#' :: " REPO: https://github.com/KuGouGo/Rules".data),
   ('#' :: " UPDATED: ".data ++ now.data)]
    ++ (TYPE_ORDER.filter (fun t => decide (0 < stats t))).map (fun t => countChars t (stats t))
    ++ [('#' :: " TOTAL: ".data) ++
          natToChars (((TYPE_ORDER.filter (fun t => decide (0 < stats t))).map stats).sum)]

/-- `_generate_header`: the lines joined by newlines, with a trailing newline. -/
def generateHeader (name now : String) (stats : RuleType → Nat) : List Char :=
  interNL (headerLinesOf name now stats ++ [[]])

/-- One output rule line `{rule_type},{value}` (without the newline). -/
def lineFor (t : RuleType) (v : String) : List Char := typeChars t ++ ',' :: v.data

/-- The output rule lines, in order: for each kind in canonical order, one
`KIND,value` line per sorted value. -/
def sectionLines (sr : RuleType → List String) : List (List Char) :=
  (TYPE_ORDER.map (fun t => (sr t).map (lineFor t))).flatten

/-- The rule-line section of `_write_list_file`: each rule line followed by a
newline. -/
def sectionChars (sr : RuleType → List String) : List Char :=
  ((sectionLines sr).map (fun l => l ++ ['\n'])).flatten

/-- The rule-line section produced by processing raw text. -/
def ruleSectionOf (raw : String) : List Char := sectionChars (finalSortedOf raw)

/-- The full text artifact: regenerated header followed by the rule lines. -/
def listArtifactChars (name now raw : String) : List Char :=
  generateHeader name now (statsOf (finalRulesOf raw)) ++ ruleSectionOf raw

/-! ## JSON artifact -/

/-- The structure of the JSON document written by `_write_json_file`:
a version field and a `rules` array of rule objects, each an ordered list of
fields mapping a name to an array of values. -/
structure JsonDoc where
  version : Nat
  rules : List (List (String × List String))
deriving DecidableEq

/-- Python `rule_entry[k] = vs` on an insertion-ordered dict. -/
def setEntry (entries : List (String × List String)) (k : String) (vs : List String) :
    List (String × List String) :=
  if entries.any (fun e => e.1 == k) then
    entries.map (fun e => if e.1 == k then (e.1, vs) else e)
  else entries ++ [(k, vs)]

/-- Python `rule_entry.setdefault(k, []).extend(vs)` as performed for IPv6. -/
def extendEntry (entries : List (String × List String)) (k : String) (vs : List String) :
    List (String × List String) :=
  if entries.any (fun e => e.1 == k) then
    entries.map (fun e => if e.1 == k then (e.1, e.2 ++ vs) else e)
  else entries ++ [(k, vs)]

/-- The `rule_entry` dict built by `_write_json_file` over `JSON_MAP.items()`. -/
def ruleEntryOf (sr : RuleType → List String) : List (String × List String) :=
  TYPE_ORDER.foldl
    (fun entries t =>
      if (sr t).isEmpty then entries
      else if t = .IP_CIDR6 then extendEntry entries "ip_cidr" (sr t)
      else setEntry entries (jsonKey t) (sr t))
    []

/-- `_write_json_file`: no document is written when the entry is empty;
otherwise a version-3 document with a single rule object. -/
def jsonDocOf (sr : RuleType → List String) : Option JsonDoc :=
  let entry := ruleEntryOf sr
  if entry.isEmpty then none
  else some ⟨3, [entry]⟩

/-- Modelled from the spec's words (§4.5, grouped form), for comparison with
`ruleEntryOf`: a single rule object mapping each present kind, in canonical
order, to its sorted value array under the fixed field names `domain`,
`domain_keyword`, `domain_suffix`, `ip_cidr`; IPv6 values merge into the same
`ip_cidr` array as IPv4 values, and kinds with no rules contribute no field. -/
def specRuleEntry (sr : RuleType → List String) : List (String × List String) :=
  (if sr .DOMAIN = [] then [] else [("domain", sr .DOMAIN)])
    ++ (if sr .DOMAIN_KEYWORD = [] then [] else [("domain_keyword", sr .DOMAIN_KEYWORD)])
    ++ (if sr .DOMAIN_SUFFIX = [] then [] else [("domain_suffix", sr .DOMAIN_SUFFIX)])
    ++ (if sr .IP_CIDR = [] ∧ sr .IP_CIDR6 = [] then []
        else [("ip_cidr", sr .IP_CIDR ++ sr .IP_CIDR6)])

/-! ## Per-file decision of `process_all_files` -/

/-- Whether any rules survive (`sorted_rules` nonempty). -/
def anyRules (raw : String) : Bool :=
  TYPE_ORDER.any (fun t => !(finalSortedOf raw t).isEmpty)

/-- The artifacts written for one file: `process_all_files` writes the text
and JSON artifacts only when the final rule set is nonempty; otherwise the
file is recorded as failed and nothing is written. -/
def engineOutputs (name now raw : String) : Option (List Char × Option JsonDoc) :=
  if anyRules raw then
    some (listArtifactChars name now raw, jsonDocOf (finalSortedOf raw))
  else none

end RulesEngine

namespace RulesEngine

/-! ## Order facts for the two sort relations -/

theorem lexLe_total : ∀ a b : List Char, lexLe a b = true ∨ lexLe b a = true
  | [], _ => Or.inl rfl
  | _ :: _, [] => Or.inr rfl
  | a :: as, b :: bs => by
    rcases lt_trichotomy a b with h | h | h
    · left; simp [lexLe, h]
    · subst h
      rcases lexLe_total as bs with h2 | h2
      · left; simp [lexLe, h2]
      · right; simp [lexLe, h2]
    · right; simp [lexLe, h, asymm h]

theorem lexLe_trans : ∀ a b c : List Char,
    lexLe a b = true → lexLe b c = true → lexLe a c = true
  | [], _, _, _, _ => rfl
  | _ :: _, [], _, h, _ => by simp [lexLe] at h
  | _ :: _, _ :: _, [], _, h2 => by simp [lexLe] at h2
  | x :: xs, y :: ys, z :: zs, h1, h2 => by
    simp only [lexLe] at h1 h2 ⊢
    by_cases hxy : x < y
    · by_cases hyz : y < z
      · simp [lt_trans hxy hyz]
      · by_cases hzy : z < y
        · simp [hyz, hzy] at h2
        · have : y = z := le_antisymm (not_lt.mp hzy) (not_lt.mp hyz)
          subst this
          simp [hxy]
    · by_cases hyx : y < x
      · simp [hxy, hyx] at h1
      · have : x = y := le_antisymm (not_lt.mp hyx) (not_lt.mp hxy)
        subst this
        simp only [lt_irrefl, if_false] at h1
        by_cases hxz : x < z
        · simp [hxz]
        · by_cases hzx : z < x
          · simp [hxz, hzx] at h2
          · have : x = z := le_antisymm (not_lt.mp hzx) (not_lt.mp hxz)
            subst this
            simp only [lt_irrefl, if_false] at h2 ⊢
            exact lexLe_trans xs ys zs h1 h2

theorem lexLe_antisymm : ∀ a b : List Char, lexLe a b = true → lexLe b a = true → a = b
  | [], [], _, _ => rfl
  | [], _ :: _, _, h2 => by simp [lexLe] at h2
  | _ :: _, [], h1, _ => by simp [lexLe] at h1
  | a :: as, b :: bs, h1, h2 => by
    simp only [lexLe] at h1 h2
    rcases lt_trichotomy a b with h | h | h
    · simp [h, asymm h] at h2
    · subst h
      simp only [lt_irrefl, if_false] at h1 h2
      rw [lexLe_antisymm as bs h1 h2]
    · simp [h, asymm h] at h1

instance : IsTotal String strLE := ⟨fun a b => lexLe_total a.data b.data⟩

instance : IsTrans String strLE := ⟨fun a b c => lexLe_trans a.data b.data c.data⟩

instance : IsAntisymm String strLE :=
  ⟨fun a b h1 h2 => by
    cases a; cases b
    exact congrArg String.mk (lexLe_antisymm _ _ h1 h2)⟩

instance : IsTotal String keyLE :=
  ⟨fun a b => by
    unfold keyLE
    rcases Nat.lt_trichotomy (labelCnt a) (labelCnt b) with h | h | h
    · exact Or.inl (Or.inl h)
    · rcases lexLe_total a.data b.data with h2 | h2
      · exact Or.inl (Or.inr ⟨h, h2⟩)
      · exact Or.inr (Or.inr ⟨h.symm, h2⟩)
    · exact Or.inr (Or.inl h)⟩

instance : IsTrans String keyLE :=
  ⟨fun a b c hab hbc => by
    unfold keyLE at *
    rcases hab with h | ⟨h1, h2⟩ <;> rcases hbc with h' | ⟨h1', h2'⟩
    · exact Or.inl (h.trans h')
    · exact Or.inl (h1' ▸ h)
    · exact Or.inl (h1 ▸ h')
    · exact Or.inr ⟨h1.trans h1', lexLe_trans _ _ _ h2 h2'⟩⟩

instance : IsAntisymm String keyLE :=
  ⟨fun a b hab hba => by
    unfold keyLE at *
    rcases hab with h | ⟨h1, h2⟩ <;> rcases hba with h' | ⟨h1', h2'⟩ <;> try omega
    cases a; cases b
    exact congrArg String.mk (lexLe_antisymm _ _ h2 h2')⟩

end RulesEngine

namespace RulesEngine

/-! ## Evaluation lemmas for the line classifier -/

theorem dropWhile_eq_self_of_head {p : Char → Bool} :
    ∀ {cs : List Char}, (∀ a, cs.head? = some a → p a = false) → cs.dropWhile p = cs
  | [], _ => rfl
  | c :: cs, h => by simp [List.dropWhile, h c rfl]

theorem trimChars_eq_self_of_ends {cs : List Char}
    (h1 : ∀ a, cs.head? = some a → a.isWhitespace = false)
    (h2 : ∀ a, cs.getLast? = some a → a.isWhitespace = false) :
    trimChars cs = cs := by
  unfold trimChars
  rw [dropWhile_eq_self_of_head h1]
  rw [dropWhile_eq_self_of_head (by simpa using h2)]
  exact cs.reverse_reverse

theorem trimChars_eq_self_of_all {cs : List Char}
    (h : ∀ c ∈ cs, c.isWhitespace = false) : trimChars cs = cs := by
  refine trimChars_eq_self_of_ends (fun a ha => h a ?_) (fun a ha => h a ?_)
  · cases cs with
    | nil => simp at ha
    | cons c l => simp at ha; simp [ha]
  · exact List.mem_of_getLast?_eq_some ha

theorem valChar_not_ws {c : Char} (h : valChar c = true) : c.isWhitespace = false := by
  unfold valChar at h
  have := (Bool.and_eq_true_iff.mp h).1
  simpa using this

theorem valChar_not_sep {c : Char} (h : valChar c = true) (hc : c ≠ ',') :
    sepChar c = false := by
  unfold sepChar
  rw [valChar_not_ws h]
  simp [hc]

theorem grabVal_of_all {v : List Char} (hne : v ≠ []) (h : ∀ c ∈ v, valChar c = true) :
    grabVal v = some v := by
  unfold grabVal
  rw [List.takeWhile_eq_self_iff.mpr h]
  simp [hne]

theorem afterSep_sep_append :
    ∀ (sep : List Char), (∀ c ∈ sep, sepChar c = true) →
      ∀ v : List Char, v ≠ [] → (∀ c ∈ v, valChar c = true) → v.head? ≠ some ',' →
        afterSep (sep ++ v) = some v
  | [], _, v, hne, hv, hh => by
    cases v with
    | nil => exact absurd rfl hne
    | cons a v' =>
      have ha : valChar a = true := hv a (.head _)
      have hns : sepChar a = false := valChar_not_sep ha (by simpa using hh)
      simp only [List.nil_append, afterSep, hns, if_false]
      exact grabVal_of_all hne hv
  | s :: sep', hs, v, hne, hv, hh => by
    have hss : sepChar s = true := hs s (.head _)
    have ih := afterSep_sep_append sep' (fun c hc => hs c (.tail _ hc)) v hne hv hh
    simp only [List.cons_append, afterSep, hss, if_true]
    rw [show sep'.append v = sep' ++ v from rfl, ih]

theorem sepVal_append {sep v : List Char} (hsne : sep ≠ [])
    (hs : ∀ c ∈ sep, sepChar c = true)
    (hne : v ≠ []) (hv : ∀ c ∈ v, valChar c = true) (hh : v.head? ≠ some ',') :
    sepVal (sep ++ v) = some v := by
  cases sep with
  | nil => exact absurd rfl hsne
  | cons s sep' =>
    have hss : sepChar s = true := hs s (.head _)
    simp only [List.cons_append, sepVal, hss, if_true]
    exact afterSep_sep_append sep' (fun c hc => hs c (.tail _ hc)) v hne hv hh

theorem sepVal_comma {v : List Char} (hne : v ≠ []) (hv : ∀ c ∈ v, valChar c = true)
    (hh : v.head? ≠ some ',' ∨ v = [',']) : sepVal (',' :: v) = some v := by
  rcases hh with hh | hh
  · have : sepVal ([','] ++ v) = some v :=
      sepVal_append (by simp) (by intro c hc; simp at hc; simp [hc, sepChar]) hne hv hh
    simpa using this
  · subst hh; decide

theorem stripKind_append_self : ∀ (ks rest : List Char), stripKind ks (ks ++ rest) = some rest
  | [], _ => rfl
  | k :: ks, rest => by simp [stripKind, stripKind_append_self ks rest]

theorem stripKind_cons_same (k : Char) (ks cs : List Char) :
    stripKind (k :: ks) (k :: cs) = stripKind ks cs := by simp [stripKind]

theorem stripKind_cons_ne (k c : Char) (ks cs : List Char)
    (h : (c.toLower == k.toLower) = false) : stripKind (k :: ks) (c :: cs) = none := by
  simp [stripKind, h]

end RulesEngine

namespace RulesEngine

theorem tryType_self (t : RuleType) (v : List Char) (hsv : sepVal (',' :: v) = some v) :
    tryType t (typeChars t ++ ',' :: v) = some (t, v) := by
  unfold tryType
  rw [stripKind_append_self]
  simp only [hsv, Option.map_some']

theorem tryType_none_head (t : RuleType) (k c : Char) (ks cs : List Char)
    (ht : typeChars t = k :: ks) (h : (c.toLower == k.toLower) = false) :
    tryType t (c :: cs) = none := by
  unfold tryType
  rw [ht, stripKind_cons_ne _ _ _ _ h]

theorem typedMatch_lineFor (t : RuleType) (v : List Char) (hne : v ≠ [])
    (hv : ∀ c ∈ v, valChar c = true) (hh : v.head? ≠ some ',' ∨ v = [',']) :
    typedMatch (typeChars t ++ ',' :: v) = some (t, v) := by
  have hsv : sepVal (',' :: v) = some v := sepVal_comma hne hv hh
  have hS := tryType_self t v hsv
  cases t
  case DOMAIN =>
    simp only [typedMatch, TYPE_ORDER, List.findSome?_cons, hS]
  case DOMAIN_KEYWORD =>
    have e1 : tryType .DOMAIN (typeChars .DOMAIN_KEYWORD ++ ',' :: v) = none := by
      unfold tryType
      rw [show typeChars RuleType.DOMAIN_KEYWORD ++ ',' :: v =
            typeChars RuleType.DOMAIN ++
              ('-' :: (['K', 'E', 'Y', 'W', 'O', 'R', 'D'] ++ ',' :: v)) from rfl]
      rw [stripKind_append_self]
      simp [sepVal, show sepChar '-' = false from by decide]
    simp only [typedMatch, TYPE_ORDER, List.findSome?_cons, e1, hS]
  case DOMAIN_SUFFIX =>
    have e1 : tryType .DOMAIN (typeChars .DOMAIN_SUFFIX ++ ',' :: v) = none := by
      unfold tryType
      rw [show typeChars RuleType.DOMAIN_SUFFIX ++ ',' :: v =
            typeChars RuleType.DOMAIN ++
              ('-' :: (['S', 'U', 'F', 'F', 'I', 'X'] ++ ',' :: v)) from rfl]
      rw [stripKind_append_self]
      simp [sepVal, show sepChar '-' = false from by decide]
    have e2 : tryType .DOMAIN_KEYWORD (typeChars .DOMAIN_SUFFIX ++ ',' :: v) = none := by
      unfold tryType
      rw [show typeChars RuleType.DOMAIN_SUFFIX ++ ',' :: v =
            'D' :: 'O' :: 'M' :: 'A' :: 'I' :: 'N' :: '-' :: 'S' ::
              (['U', 'F', 'F', 'I', 'X'] ++ ',' :: v) from rfl]
      rw [show typeChars RuleType.DOMAIN_KEYWORD =
            'D' :: 'O' :: 'M' :: 'A' :: 'I' :: 'N' :: '-' :: 'K' ::
              ['E', 'Y', 'W', 'O', 'R', 'D'] from rfl]
      rw [stripKind_cons_same, stripKind_cons_same, stripKind_cons_same, stripKind_cons_same,
        stripKind_cons_same, stripKind_cons_same, stripKind_cons_same,
        stripKind_cons_ne _ _ _ _ (by decide)]
    simp only [typedMatch, TYPE_ORDER, List.findSome?_cons, e1, e2, hS]
  case IP_CIDR =>
    have hshape : typeChars RuleType.IP_CIDR ++ ',' :: v =
        'I' :: (['P', '-', 'C', 'I', 'D', 'R'] ++ ',' :: v) := rfl
    have e1 : tryType .DOMAIN (typeChars .IP_CIDR ++ ',' :: v) = none := by
      rw [hshape]; exact tryType_none_head _ 'D' 'I' _ _ rfl (by decide)
    have e2 : tryType .DOMAIN_KEYWORD (typeChars .IP_CIDR ++ ',' :: v) = none := by
      rw [hshape]; exact tryType_none_head _ 'D' 'I' _ _ rfl (by decide)
    have e3 : tryType .DOMAIN_SUFFIX (typeChars .IP_CIDR ++ ',' :: v) = none := by
      rw [hshape]; exact tryType_none_head _ 'D' 'I' _ _ rfl (by decide)
    simp only [typedMatch, TYPE_ORDER, List.findSome?_cons, e1, e2, e3, hS]
  case IP_CIDR6 =>
    have hshape : typeChars RuleType.IP_CIDR6 ++ ',' :: v =
        'I' :: (['P', '-', 'C', 'I', 'D', 'R', '6'] ++ ',' :: v) := rfl
    have e1 : tryType .DOMAIN (typeChars .IP_CIDR6 ++ ',' :: v) = none := by
      rw [hshape]; exact tryType_none_head _ 'D' 'I' _ _ rfl (by decide)
    have e2 : tryType .DOMAIN_KEYWORD (typeChars .IP_CIDR6 ++ ',' :: v) = none := by
      rw [hshape]; exact tryType_none_head _ 'D' 'I' _ _ rfl (by decide)
    have e3 : tryType .DOMAIN_SUFFIX (typeChars .IP_CIDR6 ++ ',' :: v) = none := by
      rw [hshape]; exact tryType_none_head _ 'D' 'I' _ _ rfl (by decide)
    have e4 : tryType .IP_CIDR (typeChars .IP_CIDR6 ++ ',' :: v) = none := by
      unfold tryType
      rw [show typeChars RuleType.IP_CIDR6 ++ ',' :: v =
            typeChars RuleType.IP_CIDR ++ ('6' :: ',' :: v) from rfl]
      rw [stripKind_append_self]
      simp [sepVal, show sepChar '6' = false from by decide]
    simp only [typedMatch, TYPE_ORDER, List.findSome?_cons, e1, e2, e3, e4, hS]

end RulesEngine

namespace RulesEngine

theorem typeChars_not_ws (t : RuleType) : ∀ c ∈ typeChars t, c.isWhitespace = false := by
  cases t <;> decide

theorem parseLine_lineFor (t : RuleType) (v : String)
    (hne : v.data ≠ []) (hv : ∀ c ∈ v.data, valChar c = true)
    (hh : v.data.head? ≠ some ',' ∨ v.data = [','])
    (hlow : domainKind t = true → v.data.map Char.toLower = v.data)
    (hip : t = .IP_CIDR → isIPv4 v.data = true ∧ isIPv6 v.data = false) :
    parseLine ⟨lineFor t v⟩ = some (t, v) := by
  obtain ⟨vd⟩ := v
  simp only [String.data] at hne hv hh hlow hip
  have hall : ∀ c ∈ lineFor t ⟨vd⟩, c.isWhitespace = false := by
    intro c hc
    unfold lineFor at hc
    rcases List.mem_append.mp hc with h | h
    · exact typeChars_not_ws t c h
    · rcases List.mem_cons.mp h with rfl | h
      · decide
      · exact valChar_not_ws (hv c h)
  have htrim : trimChars (lineFor t ⟨vd⟩) = lineFor t ⟨vd⟩ := trimChars_eq_self_of_all hall
  have h1 : (lineFor t ⟨vd⟩).isEmpty = false := by cases t <;> rfl
  have h2 : ((lineFor t ⟨vd⟩).head? == some '#') = false := by cases t <;> rfl
  have h3 : typedMatch (lineFor t ⟨vd⟩) = some (t, vd) := typedMatch_lineFor t vd hne hv hh
  have h4 : trimChars vd = vd :=
    trimChars_eq_self_of_all (fun c hc => valChar_not_ws (hv c hc))
  have h5 : vd.isEmpty = false := by
    cases vd with
    | nil => exact absurd rfl hne
    | cons a l => rfl
  unfold parseLine
  simp only [String.data, htrim, h1, h2, Bool.false_eq_true, if_false, h3, h4, h5]
  cases t
  case DOMAIN => simp [domainKind, hlow rfl]
  case DOMAIN_KEYWORD => simp [domainKind, hlow rfl]
  case DOMAIN_SUFFIX => simp [domainKind, hlow rfl]
  case IP_CIDR =>
    rcases hip rfl with ⟨hi4, hi6⟩
    simp [domainKind, hi4, hi6]
  case IP_CIDR6 => simp [domainKind]

end RulesEngine

namespace RulesEngine

/-- C1: on the four-line input `DOMAIN-SUFFIX,example.com` /
`DOMAIN,sub.example.com` / `DOMAIN,example.com` / `DOMAIN,notexample.com`,
the final rule set is exactly `DOMAIN-SUFFIX = {example.com}` and
`DOMAIN = {notexample.com}`: the two domains covered on a dotted-label
boundary are removed, while `notexample.com` survives because subsumption is
not raw string-suffix matching. -/
theorem c1_scenario :
    finalSortedOf "DOMAIN-SUFFIX,example.com\nDOMAIN,sub.example.com\nDOMAIN,example.com\nDOMAIN,notexample.com" .DOMAIN_SUFFIX = ["example.com"] ∧
    finalSortedOf "DOMAIN-SUFFIX,example.com\nDOMAIN,sub.example.com\nDOMAIN,example.com\nDOMAIN,notexample.com" .DOMAIN = ["notexample.com"] ∧
    finalSortedOf "DOMAIN-SUFFIX,example.com\nDOMAIN,sub.example.com\nDOMAIN,example.com\nDOMAIN,notexample.com" .DOMAIN_KEYWORD = [] ∧
    finalSortedOf "DOMAIN-SUFFIX,example.com\nDOMAIN,sub.example.com\nDOMAIN,example.com\nDOMAIN,notexample.com" .IP_CIDR = [] ∧
    finalSortedOf "DOMAIN-SUFFIX,example.com\nDOMAIN,sub.example.com\nDOMAIN,example.com\nDOMAIN,notexample.com" .IP_CIDR6 = [] := by
  refine ⟨?_, ?_, ?_, ?_, ?_⟩ <;> decide

/-- C9: the redundancy-filter stage leaves the `DOMAIN-KEYWORD`, `IP-CIDR`
and `IP-CIDR6` value sets of every rule set exactly as they were; only the
`DOMAIN` and `DOMAIN-SUFFIX` entries may differ. -/
theorem c9_filter_frame (rd : RuleType → List String) :
    filterStage rd .DOMAIN_KEYWORD = rd .DOMAIN_KEYWORD ∧
    filterStage rd .IP_CIDR = rd .IP_CIDR ∧
    filterStage rd .IP_CIDR6 = rd .IP_CIDR6 :=
  ⟨rfl, rfl, rfl⟩

/-- C7 (code bug witness): on `"DOMAIN,a.com\n# NAME: x"` the header regex
matches the later `# NAME: x` block (length 9), but `_load_content` removes
the first 9 characters of the content instead of the matched region, leaving
`"com\n# NAME: x"`; the rule `DOMAIN,a.com` is destroyed (no `DOMAIN` value
survives) and the mangled remnant `com` is counted as one invalid line. -/
theorem c7_header_strip_code_bug :
    loadContent "DOMAIN,a.com\n# NAME: x" = "com\n# NAME: x" ∧
    rulesDataOf "DOMAIN,a.com\n# NAME: x" .DOMAIN = [] ∧
    invalidCountOf "DOMAIN,a.com\n# NAME: x" = 1 := by
  refine ⟨?_, ?_, ?_⟩ <;> decide

end RulesEngine

namespace RulesEngine

/-- C10: a line consisting of the `IP-CIDR6` keyword, a nonempty run of
comma/whitespace separator characters and a value (a nonempty maximal run of
non-whitespace, non-`#` characters) is accepted as an `IP-CIDR6` rule with the
value taken verbatim — neither lower-cased nor validated against the IPv6
grammar — while the very same value after `IP-CIDR` is rejected as invalid,
as the example `not-an-ip` shows. -/
theorem c10_ipcidr6_verbatim (sep v : List Char) (hsne : sep ≠ [])
    (hs : ∀ c ∈ sep, sepChar c = true) (hne : v ≠ [])
    (hv : ∀ c ∈ v, valChar c = true) (hh : v.head? ≠ some ',') :
    parseLine ⟨typeChars .IP_CIDR6 ++ (sep ++ v)⟩ = some (.IP_CIDR6, ⟨v⟩) ∧
    parseLine "IP-CIDR,not-an-ip" = none := by
  refine ⟨?_, by decide⟩
  have hS : tryType .IP_CIDR6 (typeChars .IP_CIDR6 ++ (sep ++ v)) = some (.IP_CIDR6, v) := by
    unfold tryType
    rw [stripKind_append_self]
    simp only [sepVal_append hsne hs hne hv hh, Option.map_some']
  have hshape : typeChars RuleType.IP_CIDR6 ++ (sep ++ v) =
      'I' :: (['P', '-', 'C', 'I', 'D', 'R', '6'] ++ (sep ++ v)) := rfl
  have e1 : tryType .DOMAIN (typeChars .IP_CIDR6 ++ (sep ++ v)) = none := by
    rw [hshape]; exact tryType_none_head _ 'D' 'I' _ _ rfl (by decide)
  have e2 : tryType .DOMAIN_KEYWORD (typeChars .IP_CIDR6 ++ (sep ++ v)) = none := by
    rw [hshape]; exact tryType_none_head _ 'D' 'I' _ _ rfl (by decide)
  have e3 : tryType .DOMAIN_SUFFIX (typeChars .IP_CIDR6 ++ (sep ++ v)) = none := by
    rw [hshape]; exact tryType_none_head _ 'D' 'I' _ _ rfl (by decide)
  have e4 : tryType .IP_CIDR (typeChars .IP_CIDR6 ++ (sep ++ v)) = none := by
    unfold tryType
    rw [show typeChars RuleType.IP_CIDR6 ++ (sep ++ v) =
          typeChars RuleType.IP_CIDR ++ ('6' :: (sep ++ v)) from rfl]
    rw [stripKind_append_self]
    simp [sepVal, show sepChar '6' = false from by decide]
  have hmatch : typedMatch (typeChars .IP_CIDR6 ++ (sep ++ v)) = some (.IP_CIDR6, v) := by
    simp only [typedMatch, TYPE_ORDER, List.findSome?_cons, e1, e2, e3, e4, hS]
  have hvne : sep ++ v ≠ [] := by
    cases sep with
    | nil => exact absurd rfl hsne
    | cons a l => simp
  have htrim : trimChars (typeChars RuleType.IP_CIDR6 ++ (sep ++ v)) =
      typeChars RuleType.IP_CIDR6 ++ (sep ++ v) := by
    refine trimChars_eq_self_of_ends ?_ ?_
    · intro a ha
      rw [hshape] at ha
      simp at ha
      rw [← ha]
      decide
    · intro a ha
      rw [List.getLast?_append] at ha
      rw [List.getLast?_append] at ha
      cases hvl : v.getLast? with
      | none => exact absurd (List.getLast?_eq_none_iff.mp hvl) hne
      | some b =>
        rw [hvl] at ha
        simp only [Option.or_some, Option.some.injEq] at ha
        subst ha
        exact valChar_not_ws (hv b (List.mem_of_getLast?_eq_some hvl))
  have h1 : (typeChars RuleType.IP_CIDR6 ++ (sep ++ v)).isEmpty = false := rfl
  have h2 : ((typeChars RuleType.IP_CIDR6 ++ (sep ++ v)).head? == some '#') = false := rfl
  have h4 : trimChars v = v :=
    trimChars_eq_self_of_all (fun c hc => valChar_not_ws (hv c hc))
  have h5 : v.isEmpty = false := by
    cases v with
    | nil => exact absurd rfl hne
    | cons a l => rfl
  unfold parseLine
  simp only [String.data, htrim, h1, h2, Bool.false_eq_true, if_false, hmatch, h4, h5]
  simp [domainKind]

end RulesEngine

namespace RulesEngine

/-- C10 witness at `IP-CIDR6,NOT-an-ip`: accepted verbatim (case preserved,
no IPv6 validation), while `IP-CIDR,not-an-ip` is rejected. -/
theorem c10_ipcidr6_verbatim_witness :
    parseLine "IP-CIDR6,NOT-an-ip" = some (.IP_CIDR6, "NOT-an-ip") ∧
    parseLine "IP-CIDR,not-an-ip" = none := by
  have h := c10_ipcidr6_verbatim [','] "NOT-an-ip".data (by decide)
    (by decide) (by decide) (by decide) (by decide)
  refine ⟨?_, h.2⟩
  have h1 : parseLine ⟨typeChars .IP_CIDR6 ++ ([','] ++ "NOT-an-ip".data)⟩ =
      some (.IP_CIDR6, ⟨"NOT-an-ip".data⟩) := h.1
  exact (show parseLine "IP-CIDR6,NOT-an-ip" =
      parseLine ⟨typeChars .IP_CIDR6 ++ ([','] ++ "NOT-an-ip".data)⟩ from rfl).trans
    (h1.trans (by decide))

theorem headerSearchAux_false : ∀ (l : List Char), '\n' ∉ l → headerSearchAux l false = none
  | [], _ => rfl
  | c :: rest, h => by
    have hc : (c == '\n') = false := by
      simp only [beq_eq_false_iff_ne]
      intro he
      exact h (he ▸ List.mem_cons_self c rest)
    simp only [headerSearchAux, Bool.false_and, if_false, hc]
    exact headerSearchAux_false rest (fun hm => h (List.mem_cons_of_mem c hm))

theorem headerSearch_none (l : List Char) (hnl : '\n' ∉ l)
    (hp : chPrefix nameTag l = false) : headerSearchAux l true = none := by
  cases l with
  | nil => rfl
  | cons c rest =>
    have hc : (c == '\n') = false := by
      simp only [beq_eq_false_iff_ne]
      intro he
      exact hnl (he ▸ List.mem_cons_self c rest)
    simp only [headerSearchAux, Bool.true_and, hp, if_false, hc]
    exact headerSearchAux_false rest (fun hm => hnl (List.mem_cons_of_mem c hm))

theorem splitlinesAux_no_term :
    ∀ (l acc : List Char), (∀ c ∈ l, c ≠ '\n' ∧ c ≠ '\r') →
      acc.reverse ++ l ≠ [] → splitlinesAux l acc = [acc.reverse ++ l]
  | [], acc, _, hne => by
    have : acc.isEmpty = false := by
      cases acc with
      | nil => simp at hne
      | cons a l => rfl
    simp [splitlinesAux, this]
  | c :: rest, acc, h, _ => by
    have h1 : c ≠ '\n' := (h c (List.mem_cons_self c rest)).1
    have h2 : c ≠ '\r' := (h c (List.mem_cons_self c rest)).2
    rw [show splitlinesAux (c :: rest) acc = splitlinesAux rest (c :: acc) by
      simp [splitlinesAux, h1, h2]]
    rw [splitlinesAux_no_term rest (c :: acc)
      (fun d hd => h d (List.mem_cons_of_mem c hd)) (by simp)]
    simp

/-- C5: a trimmed, nonempty, non-comment line with no typed match is
classified as an implicit `DOMAIN` rule (lower-cased) when it matches the
domain-literal grammar; when it also fails the IPv4 and IPv6 grammars it is
skipped: the parse yields nothing, one invalid line is counted, and the
line reaches neither the text rule section nor the JSON document. -/
theorem c5_implicit_fallback (l : List Char)
    (htr : trimChars l = l) (hne : l ≠ []) (hc : l.head? ≠ some '#')
    (hnl : ∀ c ∈ l, c ≠ '\n' ∧ c ≠ '\r')
    (hm : typedMatch l = none) :
    (domainOnly l = true → parseLine ⟨l⟩ = some (.DOMAIN, ⟨l.map Char.toLower⟩)) ∧
    (domainOnly l = false → isIPv4 l = false → isIPv6 l = false →
      parseLine ⟨l⟩ = none ∧ invalidCountOf ⟨l⟩ = 1 ∧
      ruleSectionOf ⟨l⟩ = [] ∧ jsonDocOf (finalSortedOf ⟨l⟩) = none) := by
  have hemp : l.isEmpty = false := by
    cases l with
    | nil => exact absurd rfl hne
    | cons a r => rfl
  have hhash : (l.head? == some '#') = false := by
    simp only [beq_eq_false_iff_ne]
    exact hc
  have hparse1 : domainOnly l = true → parseLine ⟨l⟩ = some (.DOMAIN, ⟨l.map Char.toLower⟩) := by
    intro hdo
    unfold parseLine
    simp only [String.data, htr, hemp, Bool.false_eq_true, if_false, hhash, hm, hdo, if_true]
  refine ⟨hparse1, fun hdo h4 h6 => ?_⟩
  have hparse : parseLine ⟨l⟩ = none := by
    unfold parseLine
    simp only [String.data, htr, hemp, Bool.false_eq_true, if_false, hhash, hm, hdo, h4, h6]
  have hload : loadContent ⟨l⟩ = ⟨l⟩ := by
    unfold loadContent loadChars
    have hp : chPrefix nameTag l = false := by
      cases l with
      | nil => rfl
      | cons c rest =>
        have : c ≠ '#' := by
          intro he
          exact hc (by simp [he])
        simp [chPrefix, nameTag, Ne.symm this]
    rw [headerSearch_none l (fun hm2 => ((hnl '\n' hm2).1) rfl) hp]
  have hsplit : splitlines l = [l] :=
    splitlinesAux_no_term l [] hnl (by simpa using hne)
  have hclass : classifyContent ⟨l⟩ = (fun _ => [], 1) := by
    unfold classifyContent
    rw [show (⟨l⟩ : String).data = l from rfl, hsplit]
    simp only [List.foldl_cons, List.foldl_nil, classifyStep, hparse, htr, hemp, bne, hhash,
      Bool.not_false, Bool.and_self, if_true]
  have hrd : rulesDataOf ⟨l⟩ = fun _ => [] := by
    unfold rulesDataOf
    rw [hload, hclass]
  have hfinal : ∀ t, finalSortedOf ⟨l⟩ t = [] := by
    intro t
    show sortedRulesOf (finalRulesOf ⟨l⟩) t = []
    unfold finalRulesOf sortedRulesOf
    rw [hrd]
    cases t <;> rfl
  refine ⟨hparse, ?_, ?_, ?_⟩
  · unfold invalidCountOf
    rw [hload, hclass]
  · unfold ruleSectionOf sectionChars sectionLines TYPE_ORDER
    simp only [List.map_cons, List.map_nil, hfinal]
    rfl
  · unfold jsonDocOf ruleEntryOf TYPE_ORDER
    simp only [List.foldl_cons, List.foldl_nil, hfinal]
    rfl

/-- C5 witness: `google.com` becomes `DOMAIN,google.com`;
`???not-a-domain???` is skipped, counted invalid once, and contributes to
neither output. -/
theorem c5_implicit_fallback_witness :
    parseLine "google.com" = some (.DOMAIN, "google.com") ∧
    parseLine "???not-a-domain???" = none ∧
    invalidCountOf "???not-a-domain???" = 1 ∧
    ruleSectionOf "???not-a-domain???" = [] ∧
    jsonDocOf (finalSortedOf "???not-a-domain???") = none := by
  have h1 := (c5_implicit_fallback "google.com".data (by decide) (by decide)
    (by decide) (by decide) (by decide)).1 (by decide)
  have h2 := (c5_implicit_fallback "???not-a-domain???".data (by decide) (by decide)
    (by decide) (by decide) (by decide)).2 (by decide) (by decide) (by decide)
  exact ⟨h1.trans (by decide), h2.1, h2.2.1, h2.2.2.1, h2.2.2.2⟩

end RulesEngine

namespace RulesEngine

/-- C6 counterexample: on `???not-a-domain???` every kind's final value set is
empty, yet the engine produces no artifacts at all — `process_all_files`
records the file as failed instead of writing empty-sectioned outputs, so the
claim that both artifacts are still produced fails here. -/
theorem c6_counterexample :
    finalSortedOf "???not-a-domain???" .DOMAIN = [] ∧
    finalSortedOf "???not-a-domain???" .DOMAIN_KEYWORD = [] ∧
    finalSortedOf "???not-a-domain???" .DOMAIN_SUFFIX = [] ∧
    finalSortedOf "???not-a-domain???" .IP_CIDR = [] ∧
    finalSortedOf "???not-a-domain???" .IP_CIDR6 = [] ∧
    engineOutputs "Test" "2025-01-01 00:00:00 UTC" "???not-a-domain???" = none := by
  refine ⟨?_, ?_, ?_, ?_, ?_, ?_⟩ <;> decide

/-- C6 amended: an input whose final rule set is empty after filtering yields
no artifacts: the per-file decision of `process_all_files` treats it as a
failure and writes nothing, and `_write_json_file` writes no document for an
empty rule entry. -/
theorem c6_empty_ruleset_no_artifacts (name now raw : String)
    (h : ∀ t, finalSortedOf raw t = []) :
    engineOutputs name now raw = none ∧ jsonDocOf (finalSortedOf raw) = none := by
  constructor
  · have ha : anyRules raw = false := by
      unfold anyRules TYPE_ORDER
      simp [h]
    unfold engineOutputs
    rw [ha]
    rfl
  · unfold jsonDocOf ruleEntryOf TYPE_ORDER
    simp only [List.foldl_cons, List.foldl_nil, h]
    rfl

/-- C6 amended witness at `???not-a-domain???`. -/
theorem c6_empty_ruleset_no_artifacts_witness :
    engineOutputs "Test" "2025-01-01 00:00:00 UTC" "???not-a-domain???" = none ∧
    jsonDocOf (finalSortedOf "???not-a-domain???") = none :=
  c6_empty_ruleset_no_artifacts "Test" "2025-01-01 00:00:00 UTC" "???not-a-domain???"
    (fun t => by cases t <;> decide)

theorem ruleEntryOf_eq_spec (sr : RuleType → List String) :
    ruleEntryOf sr = specRuleEntry sr := by
  unfold ruleEntryOf TYPE_ORDER specRuleEntry
  simp only [List.foldl_cons, List.foldl_nil]
  by_cases h1 : sr .DOMAIN = [] <;> by_cases h2 : sr .DOMAIN_KEYWORD = [] <;>
    by_cases h3 : sr .DOMAIN_SUFFIX = [] <;> by_cases h4 : sr .IP_CIDR = [] <;>
    by_cases h5 : sr .IP_CIDR6 = [] <;>
    simp [h1, h2, h3, h4, h5, setEntry, extendEntry, jsonKey]

/-- C8: the JSON document of every final rule set is exactly a version-3
object whose `rules` array holds a single rule object with one field per
present kind under the fixed names (`domain`, `domain_keyword`,
`domain_suffix`, `ip_cidr`), IPv6 values merged after IPv4 values in the one
`ip_cidr` array, kinds with no rules contributing no field — and no document
at all when every kind is empty. -/
theorem c8_json_document_shape (sr : RuleType → List String) :
    jsonDocOf sr =
      if specRuleEntry sr = [] then none else some ⟨3, [specRuleEntry sr]⟩ := by
  unfold jsonDocOf
  rw [ruleEntryOf_eq_spec]
  by_cases hemp : specRuleEntry sr = []
  · simp [hemp]
  · simp [hemp]

end RulesEngine

namespace RulesEngine

/-! ## The redundancy-filter invariants -/

theorem suffixRed_irrefl (s : String) : ¬ suffixRed s s := by
  unfold suffixRed
  omega

theorem keyLE_labelCnt {a b : String} (h : keyLE a b) : labelCnt a ≤ labelCnt b := by
  rcases h with h | ⟨h, _⟩
  · exact le_of_lt h
  · exact le_of_eq h

theorem suffixRed_labelCnt {s e : String} (h : suffixRed s e) : labelCnt e < labelCnt s := h.1

theorem mem_sinsert {a v : String} {l : List String} :
    a ∈ sinsert v l ↔ a = v ∨ a ∈ l := by
  unfold sinsert
  by_cases h : v ∈ l
  · simp only [h, if_true]
    constructor
    · exact fun ha => Or.inr ha
    · rintro (rfl | ha)
      · exact h
      · exact ha
  · simp [h, or_comm]

theorem foldl_suffixStep_nored :
    ∀ (l : List String) (acc : List String),
      (∀ a ∈ acc, ∀ b ∈ acc, ¬ suffixRed a b) →
      (∀ a ∈ acc, ∀ r ∈ l, keyLE a r) →
      l.Sorted keyLE →
      ∀ a ∈ l.foldl suffixStep acc, ∀ b ∈ l.foldl suffixStep acc, ¬ suffixRed a b
  | [], acc, hacc, _, _ => by simpa using hacc
  | x :: xs, acc, hacc, hbound, hsorted => by
    rw [List.foldl_cons]
    have hsort' : xs.Sorted keyLE := (List.sorted_cons.mp hsorted).2
    have hxband : ∀ b ∈ xs, keyLE x b := (List.sorted_cons.mp hsorted).1
    by_cases hany : acc.any (fun e => decide (suffixRed x e)) = true
    · have hstep : suffixStep acc x = acc := by unfold suffixStep; rw [hany]; rfl
      rw [hstep]
      exact foldl_suffixStep_nored xs acc hacc
        (fun a ha r hr => hbound a ha r (List.mem_cons_of_mem x hr)) hsort'
    · have hfalse : acc.any (fun e => decide (suffixRed x e)) = false :=
        Bool.eq_false_iff.mpr hany
      have hnotred : ∀ e ∈ acc, ¬ suffixRed x e := by
        intro e he
        have := List.any_eq_false.mp hfalse e he
        simpa using this
      have hstep : suffixStep acc x = sinsert x acc := by
        unfold suffixStep
        rw [hfalse]
        rfl
      rw [hstep]
      have hacc' : ∀ a ∈ sinsert x acc, ∀ b ∈ sinsert x acc, ¬ suffixRed a b := by
        intro a ha b hb
        rcases mem_sinsert.mp ha with ha' | ha'
        · rcases mem_sinsert.mp hb with hb' | hb'
          · rw [ha', hb']
            exact suffixRed_irrefl x
          · rw [ha']
            exact hnotred b hb'
        · rcases mem_sinsert.mp hb with hb' | hb'
          · rw [hb']
            intro hred
            have h1 : labelCnt x < labelCnt a := suffixRed_labelCnt hred
            have h2 : labelCnt a ≤ labelCnt x :=
              keyLE_labelCnt (hbound a ha' x (List.mem_cons_self x xs))
            omega
          · exact hacc a ha' b hb'
      have hbound' : ∀ a ∈ sinsert x acc, ∀ r ∈ xs, keyLE a r := by
        intro a ha r hr
        rcases mem_sinsert.mp ha with ha' | ha'
        · rw [ha']
          exact hxband r hr
        · exact hbound a ha' r (List.mem_cons_of_mem x hr)
      exact foldl_suffixStep_nored xs (sinsert x acc) hacc' hbound' hsort'

theorem filterRedundantSuffixes_nored (S : List String) :
    ∀ a ∈ filterRedundantSuffixes S, ∀ b ∈ filterRedundantSuffixes S, ¬ suffixRed a b := by
  unfold filterRedundantSuffixes
  by_cases hlen : S.length ≤ 1
  · simp only [hlen, if_true]
    intro a ha b hb
    have hab : a = b := by
      cases S with
      | nil => simp at ha
      | cons s l =>
        cases l with
        | nil =>
          simp at ha hb
          rw [ha, hb]
        | cons s2 l2 => simp at hlen
    rw [hab]
    exact suffixRed_irrefl b
  · simp only [hlen, if_false]
    exact foldl_suffixStep_nored (List.insertionSort keyLE S) []
      (by simp) (by simp) (List.sorted_insertionSort keyLE S)

theorem dedupDomains_covered (D S : List String) :
    ∀ d ∈ dedupDomains D S, ∀ s ∈ S, ¬ coversDom s d := by
  unfold dedupDomains
  by_cases hg : (D.isEmpty || S.isEmpty) = true
  · simp only [hg, if_true]
    rcases Bool.or_eq_true_iff.mp hg with h | h
    · intro d hd
      rw [List.isEmpty_eq_true.mp h] at hd
      simp at hd
    · intro d _ s hs
      rw [List.isEmpty_eq_true.mp h] at hs
      simp at hs
  · simp only [hg, if_false]
    intro d hd s hs
    have hmem := List.mem_filter.mp hd
    have := hmem.2
    simp only [Bool.not_eq_true'] at this
    have hall := List.any_eq_false.mp this s hs
    simpa using hall

theorem filterStage_suffix_nored (rd : RuleType → List String) :
    ∀ s1 ∈ filterStage rd .DOMAIN_SUFFIX, ∀ s2 ∈ filterStage rd .DOMAIN_SUFFIX,
      ¬ suffixRed s2 s1 := by
  intro s1 h1 s2 h2
  show ¬ suffixRed s2 s1
  by_cases hds : (rd .DOMAIN_SUFFIX).isEmpty
  · have : filterStage rd .DOMAIN_SUFFIX = rd .DOMAIN_SUFFIX := by
      unfold filterStage
      simp [hds]
    rw [this, List.isEmpty_eq_true.mp hds] at h1
    simp at h1
  · have : filterStage rd .DOMAIN_SUFFIX = filterRedundantSuffixes (rd .DOMAIN_SUFFIX) := by
      unfold filterStage
      simp [hds]
    rw [this] at h1 h2
    exact fun hred => filterRedundantSuffixes_nored _ s2 h2 s1 h1 hred

theorem filterStage_dom_nocov (rd : RuleType → List String) :
    ∀ d ∈ filterStage rd .DOMAIN, ∀ s ∈ filterStage rd .DOMAIN_SUFFIX,
      ¬ coversDom s d := by
  intro d hd s hs
  by_cases hds : (rd .DOMAIN_SUFFIX).isEmpty
  · have : filterStage rd .DOMAIN_SUFFIX = rd .DOMAIN_SUFFIX := by
      unfold filterStage
      simp [hds]
    rw [this, List.isEmpty_eq_true.mp hds] at hs
    simp at hs
  · have hdsval : filterStage rd .DOMAIN_SUFFIX = filterRedundantSuffixes (rd .DOMAIN_SUFFIX) := by
      unfold filterStage
      simp [hds]
    by_cases hdom : (rd .DOMAIN).isEmpty
    · have : filterStage rd .DOMAIN = rd .DOMAIN := by
        unfold filterStage
        simp [hdom]
      rw [this, List.isEmpty_eq_true.mp hdom] at hd
      simp at hd
    · have hdval : filterStage rd .DOMAIN =
          dedupDomains (rd .DOMAIN) (filterRedundantSuffixes (rd .DOMAIN_SUFFIX)) := by
        unfold filterStage
        simp [hdom, hds]
      rw [hdval] at hd
      rw [hdsval] at hs
      exact dedupDomains_covered _ _ d hd s hs

/-- C2: after the redundancy filter runs (suffix self-dedup, then
domain-vs-suffix dedup), no surviving `DOMAIN-SUFFIX` value strictly extends
(on dotted-label boundaries) another surviving `DOMAIN-SUFFIX` value, and no
surviving `DOMAIN` value's label sequence ends with the full label sequence
of any surviving `DOMAIN-SUFFIX` value. -/
theorem c2_dedup_invariant (rd : RuleType → List String) :
    (∀ s1 ∈ filterStage rd .DOMAIN_SUFFIX, ∀ s2 ∈ filterStage rd .DOMAIN_SUFFIX,
      ¬ suffixRed s2 s1) ∧
    (∀ d ∈ filterStage rd .DOMAIN, ∀ s ∈ filterStage rd .DOMAIN_SUFFIX,
      ¬ coversDom s d) :=
  ⟨filterStage_suffix_nored rd, filterStage_dom_nocov rd⟩

/-- C2 witness: with domains `{notexample.com}` and suffixes
`{example.com, sub.example.com}`, the surviving suffix `example.com` does not
strictly extend itself and does not cover `notexample.com`. -/
theorem c2_dedup_invariant_witness :
    ¬ suffixRed "example.com" "example.com" ∧
    ¬ coversDom "example.com" "notexample.com" := by
  have h := c2_dedup_invariant (fun t =>
    match t with
    | .DOMAIN => ["notexample.com"]
    | .DOMAIN_SUFFIX => ["example.com", "sub.example.com"]
    | _ => [])
  exact ⟨h.1 "example.com" (by decide) "example.com" (by decide),
    h.2 "notexample.com" (by decide) "example.com" (by decide)⟩

end RulesEngine

namespace RulesEngine

/-! ## Duplicate-freeness of the modelled rule sets -/

theorem sinsert_nodup {v : String} {l : List String} (h : l.Nodup) : (sinsert v l).Nodup := by
  unfold sinsert
  by_cases hm : v ∈ l
  · simpa [hm] using h
  · simp [List.nodup_append, h, hm]

theorem foldl_classify_nodup :
    ∀ (ls : List (List Char)) (acc : (RuleType → List String) × Nat),
      (∀ t, (acc.1 t).Nodup) → ∀ t, ((ls.foldl classifyStep acc).1 t).Nodup
  | [], _, h => h
  | l :: ls, acc, h => by
    rw [List.foldl_cons]
    refine foldl_classify_nodup ls (classifyStep acc l) ?_
    intro t
    unfold classifyStep
    cases hp : parseLine ⟨l⟩ with
    | none =>
      by_cases hc : (!(trimChars l).isEmpty && ((trimChars l).head? != some '#')) = true
      · simpa [hc] using h t
      · simpa [Bool.eq_false_iff.mpr hc] using h t
    | some tv =>
      simp only []
      unfold addRule
      by_cases ht : t = tv.1
      · simp only [ht, if_true]
        exact sinsert_nodup (h tv.1)
      · simpa [ht] using h t

theorem rulesDataOf_nodup (raw : String) (t : RuleType) : (rulesDataOf raw t).Nodup := by
  unfold rulesDataOf classifyContent
  exact foldl_classify_nodup _ _ (fun _ => List.nodup_nil) t

theorem foldl_suffixStep_nodup :
    ∀ (l acc : List String), acc.Nodup → (l.foldl suffixStep acc).Nodup
  | [], acc, h => h
  | x :: xs, acc, h => by
    rw [List.foldl_cons]
    refine foldl_suffixStep_nodup xs (suffixStep acc x) ?_
    unfold suffixStep
    by_cases hc : acc.any (fun e => decide (suffixRed x e)) = true
    · simpa [hc] using h
    · simp only [Bool.eq_false_iff.mpr hc, Bool.false_eq_true, if_false]
      exact sinsert_nodup h

theorem filterRedundantSuffixes_nodup {S : List String} (h : S.Nodup) :
    (filterRedundantSuffixes S).Nodup := by
  unfold filterRedundantSuffixes
  by_cases hl : S.length ≤ 1
  · simpa [hl] using h
  · simp only [hl, if_false]
    exact foldl_suffixStep_nodup _ [] List.nodup_nil

theorem dedupDomains_nodup {D : List String} (S : List String) (h : D.Nodup) :
    (dedupDomains D S).Nodup := by
  unfold dedupDomains
  by_cases hg : (D.isEmpty || S.isEmpty) = true
  · simpa [hg] using h
  · simp only [Bool.eq_false_iff.mpr hg, Bool.false_eq_true, if_false]
    exact h.filter _

theorem finalRulesOf_nodup (raw : String) (t : RuleType) : (finalRulesOf raw t).Nodup := by
  have hbase := rulesDataOf_nodup raw
  unfold finalRulesOf filterStage
  cases t
  case DOMAIN =>
    by_cases hg : (!(rulesDataOf raw .DOMAIN).isEmpty &&
        !(rulesDataOf raw .DOMAIN_SUFFIX).isEmpty) = true
    · simp only [hg, if_true]
      exact dedupDomains_nodup _ (hbase .DOMAIN)
    · simpa [Bool.eq_false_iff.mpr hg] using hbase .DOMAIN
  case DOMAIN_SUFFIX =>
    by_cases hg : (!(rulesDataOf raw .DOMAIN_SUFFIX).isEmpty) = true
    · simp only [hg, if_true]
      exact filterRedundantSuffixes_nodup (hbase .DOMAIN_SUFFIX)
    · simpa [Bool.eq_false_iff.mpr hg] using hbase .DOMAIN_SUFFIX
  case DOMAIN_KEYWORD => exact hbase .DOMAIN_KEYWORD
  case IP_CIDR => exact hbase .IP_CIDR
  case IP_CIDR6 => exact hbase .IP_CIDR6

/-! ## The header count lines -/

theorem statsOf_eq_length (rd : RuleType → List String) (t : RuleType) :
    statsOf rd t = (rd t).length := by
  unfold statsOf sortedRulesOf
  exact (List.perm_insertionSort strLE (rd t)).length_eq

theorem sum_filter_ne_zero (f : RuleType → Nat) :
    ∀ l : List RuleType,
      ((l.filter (fun t => decide (f t ≠ 0))).map f).sum = (l.map f).sum
  | [] => rfl
  | t :: ts => by
    rw [List.filter_cons]
    by_cases h : f t = 0
    · rw [if_neg (by simp [h])]
      rw [sum_filter_ne_zero f ts]
      simp [h]
    · rw [if_pos (by simp [h])]
      simp only [List.map_cons, List.sum_cons, sum_filter_ne_zero f ts]

/-- C4: the header generated for a processing run has exactly one count line
per kind with a nonempty final value set, in canonical kind order, each count
being the cardinality of that kind's final value set, and a TOTAL line equal
to the sum of all per-kind cardinalities (kinds with zero count are omitted
from the count lines and contribute nothing to the total). -/
theorem c4_header_counts (raw name now : String) :
    generateHeader name now (statsOf (finalRulesOf raw)) =
      interNL ([nameTag ++ (' ' :: name.data),
          ('#' :: " AUTHOR: KuGouGo".data),
          ('#' :: " REPO: https://github.com/KuGouGo/Rules".data),
          ('#' :: " UPDATED: ".data ++ now.data)]
        ++ (TYPE_ORDER.filter
              (fun t => decide ((finalRulesOf raw t).toFinset.card ≠ 0))).map
            (fun t => countChars t (finalRulesOf raw t).toFinset.card)
        ++ [('#' :: " TOTAL: ".data) ++
              natToChars
                ((TYPE_ORDER.map (fun t => (finalRulesOf raw t).toFinset.card)).sum),
            []]) := by
  have hcard : ∀ t, (finalRulesOf raw t).toFinset.card = (finalRulesOf raw t).length :=
    fun t => List.toFinset_card_of_nodup (finalRulesOf_nodup raw t)
  have hstats : ∀ t, statsOf (finalRulesOf raw) t = (finalRulesOf raw t).toFinset.card := by
    intro t
    rw [hcard t]
    exact statsOf_eq_length _ t
  unfold generateHeader headerLinesOf
  refine congrArg interNL ?_
  have hfil : TYPE_ORDER.filter (fun t => decide (0 < statsOf (finalRulesOf raw) t)) =
      TYPE_ORDER.filter (fun t => decide ((finalRulesOf raw t).toFinset.card ≠ 0)) := by
    refine List.filter_congr ?_
    intro t _
    rw [hstats t]
    exact decide_eq_decide.mpr Nat.pos_iff_ne_zero
  rw [hfil]
  have hmap : ∀ ts : List RuleType,
      ts.map (fun t => countChars t (statsOf (finalRulesOf raw) t)) =
      ts.map (fun t => countChars t (finalRulesOf raw t).toFinset.card) :=
    fun ts => List.map_congr_left (fun t _ => by rw [hstats t])
  rw [hmap]
  have htot : ((TYPE_ORDER.filter
        (fun t => decide ((finalRulesOf raw t).toFinset.card ≠ 0))).map
          (statsOf (finalRulesOf raw))).sum =
      (TYPE_ORDER.map (fun t => (finalRulesOf raw t).toFinset.card)).sum := by
    rw [show (TYPE_ORDER.filter
        (fun t => decide ((finalRulesOf raw t).toFinset.card ≠ 0))).map
          (statsOf (finalRulesOf raw)) =
        (TYPE_ORDER.filter
          (fun t => decide ((finalRulesOf raw t).toFinset.card ≠ 0))).map
            (fun t => (finalRulesOf raw t).toFinset.card) from
      List.map_congr_left (fun t _ => hstats t)]
    rw [show (TYPE_ORDER.filter
        (fun t => decide ((finalRulesOf raw t).toFinset.card ≠ 0))) =
        (TYPE_ORDER.filter
          (fun t => decide ((fun t' => (finalRulesOf raw t').toFinset.card) t ≠ 0))) from rfl]
    exact sum_filter_ne_zero (fun t => (finalRulesOf raw t).toFinset.card) TYPE_ORDER
  rw [htot]
  simp

end RulesEngine

namespace RulesEngine

/-! ## Character facts -/

theorem char_toNat_ofNat {n : Nat} (h : n.isValidChar) : (Char.ofNat n).toNat = n := by
  rw [Char.ofNat, dif_pos h]
  rfl

theorem toLower_eq (c : Char) :
    c.toLower = if c.toNat ≥ 65 ∧ c.toNat ≤ 90 then Char.ofNat (c.toNat + 32) else c := rfl

theorem toNat_toLower (c : Char) :
    c.toLower.toNat = if c.toNat ≥ 65 ∧ c.toNat ≤ 90 then c.toNat + 32 else c.toNat := by
  rw [toLower_eq]
  by_cases h : c.toNat ≥ 65 ∧ c.toNat ≤ 90
  · rw [if_pos h, if_pos h, char_toNat_ofNat (Or.inl (by omega))]
  · rw [if_neg h, if_neg h]

theorem toLower_toLower (c : Char) : c.toLower.toLower = c.toLower := by
  rw [toLower_eq c]
  by_cases h : c.toNat ≥ 65 ∧ c.toNat ≤ 90
  · have h2 : (Char.ofNat (c.toNat + 32)).toNat = c.toNat + 32 :=
      char_toNat_ofNat (Or.inl (by omega))
    rw [if_pos h, toLower_eq, h2, if_neg (by omega)]
  · rw [if_neg h, toLower_eq, if_neg h]

theorem map_toLower_idem (l : List Char) :
    (l.map Char.toLower).map Char.toLower = l.map Char.toLower := by
  rw [List.map_map]
  exact List.map_congr_left (fun c _ => toLower_toLower c)

theorem char_eq_of_toNat {a b : Char} (h : a.toNat = b.toNat) : a = b := by
  apply Char.ext
  apply UInt32.eq_of_toBitVec_eq
  exact BitVec.eq_of_toNat_eq h

theorem ne_of_toNat_ne {a b : Char} (h : a.toNat ≠ b.toNat) : a ≠ b :=
  fun he => h (he ▸ rfl)

theorem uint32_le_iff {a b : UInt32} : a ≤ b ↔ a.toNat ≤ b.toNat := by
  rw [UInt32.le_def]
  rfl

theorem not_ws_of_toNat {c : Char} (h : 32 < c.toNat) : c.isWhitespace = false := by
  have hs : c ≠ ' ' := fun he => by subst he; exact absurd h (by decide)
  have ht : c ≠ '\t' := fun he => by subst he; exact absurd h (by decide)
  have hr : c ≠ '\r' := fun he => by subst he; exact absurd h (by decide)
  have hn : c ≠ '\n' := fun he => by subst he; exact absurd h (by decide)
  simp [Char.isWhitespace, hs, ht, hr, hn]

theorem valChar_true_intro {c : Char} (h1 : c.isWhitespace = false) (h2 : c ≠ '#') :
    valChar c = true := by
  unfold valChar
  rw [h1]
  simp [h2]

theorem valChar_of_toNat {c : Char} (h1 : 32 < c.toNat) (h2 : c.toNat ≠ 35) :
    valChar c = true :=
  valChar_true_intro (not_ws_of_toNat h1) (ne_of_toNat_ne (by simpa using h2))

theorem isDigit_toNat {c : Char} (h : c.isDigit = true) : 48 ≤ c.toNat ∧ c.toNat ≤ 57 := by
  unfold Char.isDigit at h
  rw [Bool.and_eq_true_iff] at h
  obtain ⟨h1, h2⟩ := h
  rw [decide_eq_true_eq] at h1 h2
  exact ⟨uint32_le_iff.mp h1, uint32_le_iff.mp h2⟩

theorem isAlpha_toNat {c : Char} (h : c.isAlpha = true) :
    (65 ≤ c.toNat ∧ c.toNat ≤ 90) ∨ (97 ≤ c.toNat ∧ c.toNat ≤ 122) := by
  unfold Char.isAlpha Char.isUpper Char.isLower at h
  rw [Bool.or_eq_true_iff] at h
  rcases h with h | h <;> rw [Bool.and_eq_true_iff] at h <;>
    obtain ⟨h1, h2⟩ := h <;> rw [decide_eq_true_eq] at h1 h2
  · exact Or.inl ⟨uint32_le_iff.mp h1, uint32_le_iff.mp h2⟩
  · exact Or.inr ⟨uint32_le_iff.mp h1, uint32_le_iff.mp h2⟩

theorem hexDigit_toNat {c : Char} (h : hexDigit c = true) :
    (48 ≤ c.toNat ∧ c.toNat ≤ 57) ∨ (97 ≤ c.toNat ∧ c.toNat ≤ 102) ∨
      (65 ≤ c.toNat ∧ c.toNat ≤ 70) := by
  unfold hexDigit at h
  rw [Bool.or_eq_true_iff, Bool.or_eq_true_iff] at h
  rcases h with (h | h) | h
  · exact Or.inl (isDigit_toNat h)
  · rw [Bool.and_eq_true_iff] at h
    obtain ⟨h1, h2⟩ := h
    rw [decide_eq_true_eq] at h1 h2
    rw [Char.le_def] at h1 h2
    exact Or.inr (Or.inl ⟨uint32_le_iff.mp h1, uint32_le_iff.mp h2⟩)
  · rw [Bool.and_eq_true_iff] at h
    obtain ⟨h1, h2⟩ := h
    rw [decide_eq_true_eq] at h1 h2
    rw [Char.le_def] at h1 h2
    exact Or.inr (Or.inr ⟨uint32_le_iff.mp h1, uint32_le_iff.mp h2⟩)

theorem valChar_toLower {c : Char} (h : valChar c = true) : valChar c.toLower = true := by
  by_cases hc : c.toNat ≥ 65 ∧ c.toNat ≤ 90
  · refine valChar_of_toNat ?_ ?_ <;> rw [toNat_toLower, if_pos hc] <;> omega
  · rw [toLower_eq, if_neg hc]
    exact h

theorem toLower_ne_comma {c : Char} (h : c ≠ ',') : c.toLower ≠ ',' := by
  intro he
  by_cases hc : c.toNat ≥ 65 ∧ c.toNat ≤ 90
  · have := congrArg Char.toNat he
    rw [toNat_toLower, if_pos hc] at this
    have h44 : (',').toNat = 44 := rfl
    omega
  · rw [toLower_eq, if_neg hc] at he
    exact h he

end RulesEngine

namespace RulesEngine

/-! ## Invariants of the captured value group -/

theorem sep_and_val_eq_comma {c : Char} (hs : sepChar c = true) (hv : valChar c = true) :
    c = ',' := by
  unfold sepChar at hs
  unfold valChar at hv
  rw [Bool.and_eq_true_iff] at hv
  rcases Bool.or_eq_true_iff.mp hs with h | h
  · exact eq_of_beq h
  · rw [h] at hv
    simp at hv

theorem not_sep_ne_comma {c : Char} (hs : sepChar c ≠ true) : c ≠ ',' := by
  intro he
  subst he
  exact hs rfl

theorem grabVal_eq {cs v : List Char} (h : grabVal cs = some v) :
    v = cs.takeWhile valChar ∧ v ≠ [] := by
  unfold grabVal at h
  by_cases he : (cs.takeWhile valChar).isEmpty
  · simp [he] at h
  · simp only [he, Bool.false_eq_true, if_false, Option.some.injEq] at h
    subst h
    exact ⟨rfl, List.isEmpty_eq_false.mp (Bool.eq_false_iff.mpr he)⟩

theorem grabVal_none {cs : List Char} (h : grabVal cs = none) :
    cs.takeWhile valChar = [] := by
  unfold grabVal at h
  by_cases he : (cs.takeWhile valChar).isEmpty
  · exact List.isEmpty_eq_true.mp he
  · simp [he] at h

theorem mem_takeWhile_val {cs : List Char} : ∀ c ∈ cs.takeWhile valChar, valChar c = true :=
  fun _ hc => List.mem_takeWhile_imp hc

theorem afterSep_none_takeWhile : ∀ {cs : List Char}, afterSep cs = none →
    cs.takeWhile valChar = []
  | [], _ => rfl
  | c :: rest, h => by
    unfold afterSep at h
    by_cases hs : sepChar c = true
    · rw [if_pos hs] at h
      cases ha : afterSep rest with
      | some w => rw [ha] at h; simp at h
      | none => rw [ha] at h; exact grabVal_none h
    · rw [if_neg hs] at h
      exact grabVal_none h

theorem afterSep_inv : ∀ {cs v : List Char}, afterSep cs = some v →
    v ≠ [] ∧ (∀ c ∈ v, valChar c = true) ∧ (v.head? ≠ some ',' ∨ v = [','])
  | [], v, h => by simp [afterSep] at h
  | c :: rest, v, h => by
    unfold afterSep at h
    by_cases hs : sepChar c = true
    · rw [if_pos hs] at h
      cases ha : afterSep rest with
      | some w =>
        rw [ha] at h
        simp only [Option.some.injEq] at h
        subst h
        exact afterSep_inv ha
      | none =>
        rw [ha] at h
        obtain ⟨hv, hne⟩ := grabVal_eq h
        have htw : rest.takeWhile valChar = [] := afterSep_none_takeWhile ha
        by_cases hvc : valChar c = true
        · have hcc : c = ',' := sep_and_val_eq_comma hs hvc
          rw [List.takeWhile_cons, if_pos hvc, htw] at hv
          subst hv
          subst hcc
          exact ⟨by simp, by decide, Or.inr rfl⟩
        · rw [List.takeWhile_cons, if_neg hvc] at hv
          exact absurd hv hne
    · rw [if_neg hs] at h
      obtain ⟨hv, hne⟩ := grabVal_eq h
      by_cases hvc : valChar c = true
      · rw [List.takeWhile_cons, if_pos hvc] at hv
        subst hv
        refine ⟨by simp, ?_, Or.inl ?_⟩
        · intro d hd
          rcases List.mem_cons.mp hd with rfl | hd
          · exact hvc
          · exact mem_takeWhile_val d hd
        · intro hh
          exact not_sep_ne_comma hs (by simpa using hh)
      · rw [List.takeWhile_cons, if_neg hvc] at hv
        exact absurd hv hne

theorem sepVal_inv {cs v : List Char} (h : sepVal cs = some v) :
    v ≠ [] ∧ (∀ c ∈ v, valChar c = true) ∧ (v.head? ≠ some ',' ∨ v = [',']) := by
  cases cs with
  | nil => simp [sepVal] at h
  | cons c rest =>
    rw [show sepVal (c :: rest) = if sepChar c = true then afterSep rest else none from rfl] at h
    by_cases hs : sepChar c = true
    · rw [if_pos hs] at h
      exact afterSep_inv h
    · rw [if_neg hs] at h
      simp at h

end RulesEngine

namespace RulesEngine

/-! ## Character-class facts for the IP and domain grammars -/

theorem char_le_toNat {a b : Char} : a ≤ b ↔ a.toNat ≤ b.toNat :=
  Char.le_def.trans uint32_le_iff

theorem isDigit_of_toNat {c : Char} (h1 : 48 ≤ c.toNat) (h2 : c.toNat ≤ 57) :
    c.isDigit = true := by
  unfold Char.isDigit
  rw [Bool.and_eq_true_iff]
  exact ⟨decide_eq_true (uint32_le_iff.mpr h1), decide_eq_true (uint32_le_iff.mpr h2)⟩

theorem mem_splitOnAux (sep : Char) :
    ∀ (cs acc : List Char) (c : Char), c ∈ cs ∨ c ∈ acc →
      c = sep ∨ ∃ p ∈ splitOnAux sep cs acc, c ∈ p
  | [], acc, c, h => by
    right
    refine ⟨acc.reverse, by simp [splitOnAux], ?_⟩
    simp only [List.mem_reverse]
    exact h.resolve_left (by simp)
  | x :: rest, acc, c, h => by
    by_cases hx : x = sep
    · simp only [splitOnAux, if_pos hx]
      rcases h with h | h
      · rcases List.mem_cons.mp h with rfl | h2
        · exact Or.inl hx
        · rcases mem_splitOnAux sep rest [] c (Or.inl h2) with h3 | ⟨p, hp, hcp⟩
          · exact Or.inl h3
          · exact Or.inr ⟨p, List.mem_cons_of_mem _ hp, hcp⟩
      · exact Or.inr ⟨acc.reverse, List.mem_cons_self _ _, by simpa using h⟩
    · simp only [splitOnAux, if_neg hx]
      refine mem_splitOnAux sep rest (x :: acc) c ?_
      rcases h with h | h
      · rcases List.mem_cons.mp h with rfl | h2
        · exact Or.inr (List.mem_cons_self _ _)
        · exact Or.inl h2
      · exact Or.inr (List.mem_cons_of_mem _ h)

theorem mem_splitOnCh {sep : Char} {cs : List Char} {c : Char} (h : c ∈ cs) :
    c = sep ∨ ∃ p ∈ splitOnCh sep cs, c ∈ p :=
  mem_splitOnAux sep cs [] c (Or.inl h)

theorem splitOnAux_part_mem (sep : Char) :
    ∀ (cs acc p : List Char), p ∈ splitOnAux sep cs acc → ∀ c ∈ p, c ∈ cs ∨ c ∈ acc
  | [], acc, p, hp, c, hc => by
    simp only [splitOnAux, List.mem_singleton] at hp
    subst hp
    exact Or.inr (by simpa using hc)
  | x :: rest, acc, p, hp, c, hc => by
    by_cases hx : x = sep
    · simp only [splitOnAux, if_pos hx] at hp
      rcases List.mem_cons.mp hp with rfl | hp2
      · exact Or.inr (by simpa using hc)
      · rcases splitOnAux_part_mem sep rest [] p hp2 c hc with h | h
        · exact Or.inl (List.mem_cons_of_mem _ h)
        · simp at h
    · simp only [splitOnAux, if_neg hx] at hp
      rcases splitOnAux_part_mem sep rest (x :: acc) p hp c hc with h | h
      · exact Or.inl (List.mem_cons_of_mem _ h)
      · rcases List.mem_cons.mp h with rfl | h2
        · exact Or.inl (List.mem_cons_self _ _)
        · exact Or.inr h2

theorem splitOnCh_part_mem {sep : Char} {cs p : List Char}
    (hp : p ∈ splitOnCh sep cs) : ∀ c ∈ p, c ∈ cs := by
  intro c hc
  rcases splitOnAux_part_mem sep cs [] p hp c hc with h | h
  · exact h
  · simp at h

theorem splitOnAux_no_sep (sep : Char) :
    ∀ (cs acc : List Char), sep ∉ cs → splitOnAux sep cs acc = [acc.reverse ++ cs]
  | [], acc, _ => by simp [splitOnAux]
  | x :: rest, acc, h => by
    have hx : x ≠ sep := fun he => h (he ▸ List.mem_cons_self x rest)
    simp only [splitOnAux, if_neg hx]
    rw [splitOnAux_no_sep sep rest (x :: acc) (fun hm => h (List.mem_cons_of_mem x hm))]
    simp

theorem splitOnCh_no_sep {sep : Char} {cs : List Char} (h : sep ∉ cs) :
    splitOnCh sep cs = [cs] := by
  unfold splitOnCh
  rw [splitOnAux_no_sep sep cs [] h]
  simp

end RulesEngine

namespace RulesEngine

theorem isOctet_digit {p : List Char} (h : isOctet p = true) : ∀ c ∈ p, c.isDigit = true := by
  intro c hc
  match p, h, hc with
  | [a], h, hc =>
    rcases List.mem_singleton.mp hc with rfl
    exact h
  | [a, b], h, hc =>
    rw [show isOctet [a, b] = (a.isDigit && b.isDigit) from rfl, Bool.and_eq_true_iff] at h
    rcases List.mem_cons.mp hc with rfl | hc2
    · exact h.1
    · rcases List.mem_singleton.mp hc2 with rfl
      exact h.2
  | [a, b, c2], h, hc =>
    rw [show isOctet [a, b, c2] =
        ((a == '2' && b == '5' && (decide ('0' ≤ c2) && decide (c2 ≤ '5')))
          || (a == '2' && (decide ('0' ≤ b) && decide (b ≤ '4')) && c2.isDigit)
          || ((a == '0' || a == '1') && b.isDigit && c2.isDigit)) from rfl] at h
    simp only [Bool.or_eq_true_iff, Bool.and_eq_true_iff, beq_iff_eq, decide_eq_true_eq,
      Bool.or_eq_true_iff] at h
    have hdig : a.isDigit = true ∧ b.isDigit = true ∧ c2.isDigit = true := by
      rcases h with (⟨⟨ha, hb⟩, h1, h2⟩ | ⟨⟨ha, h1, h2⟩, h3⟩) | ⟨⟨ha, h1⟩, h2⟩
      · subst ha
        subst hb
        exact ⟨by decide, by decide,
          isDigit_of_toNat (char_le_toNat.mp h1) (le_trans (char_le_toNat.mp h2) (by decide))⟩
      · subst ha
        exact ⟨by decide,
          isDigit_of_toNat (char_le_toNat.mp h1) (le_trans (char_le_toNat.mp h2) (by decide)), h3⟩
      · rcases ha with rfl | rfl
        · exact ⟨by decide, h1, h2⟩
        · exact ⟨by decide, h1, h2⟩
    rcases List.mem_cons.mp hc with rfl | hc2
    · exact hdig.1
    · rcases List.mem_cons.mp hc2 with rfl | hc3
      · exact hdig.2.1
      · rcases List.mem_singleton.mp hc3 with rfl
        exact hdig.2.2

theorem isPre32_digit {p : List Char} (h : isPre32 p = true) : ∀ c ∈ p, c.isDigit = true := by
  intro c hc
  match p, h, hc with
  | [a], h, hc =>
    rcases List.mem_singleton.mp hc with rfl
    exact h
  | [a, b], h, hc =>
    rw [show isPre32 [a, b] =
        ((a == '3' && (b == '0' || b == '1' || b == '2'))
          || ((a == '1' || a == '2') && b.isDigit)) from rfl] at h
    simp only [Bool.or_eq_true_iff, Bool.and_eq_true_iff, beq_iff_eq] at h
    have hdig : a.isDigit = true ∧ b.isDigit = true := by
      rcases h with ⟨ha, (hb | hb) | hb⟩ | ⟨ha | ha, hb⟩
      · subst ha; subst hb; exact ⟨by decide, by decide⟩
      · subst ha; subst hb; exact ⟨by decide, by decide⟩
      · subst ha; subst hb; exact ⟨by decide, by decide⟩
      · subst ha; exact ⟨by decide, hb⟩
      · subst ha; exact ⟨by decide, hb⟩
    rcases List.mem_cons.mp hc with rfl | hc2
    · exact hdig.1
    · rcases List.mem_singleton.mp hc2 with rfl
      exact hdig.2

theorem isPre128_digit {p : List Char} (h : isPre128 p = true) : ∀ c ∈ p, c.isDigit = true := by
  intro c hc
  match p, h, hc with
  | [a], h, hc =>
    rcases List.mem_singleton.mp hc with rfl
    exact h
  | [a, b], h, hc =>
    rw [show isPre128 [a, b] = ((decide ('1' ≤ a) && decide (a ≤ '9')) && b.isDigit) from rfl] at h
    simp only [Bool.and_eq_true_iff, decide_eq_true_eq] at h
    obtain ⟨⟨h1, h2⟩, h3⟩ := h
    have ha : a.isDigit = true :=
      isDigit_of_toNat (le_trans (by decide) (char_le_toNat.mp h1))
        (le_trans (char_le_toNat.mp h2) (by decide))
    rcases List.mem_cons.mp hc with rfl | hc2
    · exact ha
    · rcases List.mem_singleton.mp hc2 with rfl
      exact h3
  | [a, b, c2], h, hc =>
    rw [show isPre128 [a, b, c2] =
        ((a == '1' && b == '2' && (decide ('0' ≤ c2) && decide (c2 ≤ '8')))
          || (a == '1' && (b == '0' || b == '1') && c2.isDigit)) from rfl] at h
    simp only [Bool.or_eq_true_iff, Bool.and_eq_true_iff, beq_iff_eq, decide_eq_true_eq] at h
    have hdig : a.isDigit = true ∧ b.isDigit = true ∧ c2.isDigit = true := by
      rcases h with ⟨⟨ha, hb⟩, h1, h2⟩ | ⟨⟨ha, h1 | h1⟩, h2⟩
      · subst ha
        subst hb
        exact ⟨by decide, by decide,
          isDigit_of_toNat (char_le_toNat.mp h1) (le_trans (char_le_toNat.mp h2) (by decide))⟩
      · subst ha
        subst h1
        exact ⟨by decide, by decide, h2⟩
      · subst ha
        subst h1
        exact ⟨by decide, by decide, h2⟩
    rcases List.mem_cons.mp hc with rfl | hc2
    · exact hdig.1
    · rcases List.mem_cons.mp hc2 with rfl | hc3
      · exact hdig.2.1
      · rcases List.mem_singleton.mp hc3 with rfl
        exact hdig.2.2

end RulesEngine

namespace RulesEngine

theorem isQuad_chars {cs : List Char} (h : isQuad cs = true) :
    ∀ c ∈ cs, c.isDigit = true ∨ c = '.' := by
  intro c hc
  unfold isQuad at h
  split at h
  · rename_i a b c' d heq
    rcases @mem_splitOnCh '.' _ _ hc with rfl | ⟨p, hp, hcp⟩
    · exact Or.inr rfl
    · rw [heq] at hp
      simp only [Bool.and_eq_true_iff] at h
      left
      rcases List.mem_cons.mp hp with rfl | hp2
      · exact isOctet_digit h.1.1.1 c hcp
      · rcases List.mem_cons.mp hp2 with rfl | hp3
        · exact isOctet_digit h.1.1.2 c hcp
        · rcases List.mem_cons.mp hp3 with rfl | hp4
          · exact isOctet_digit h.1.2 c hcp
          · rcases List.mem_singleton.mp hp4 with rfl
            exact isOctet_digit h.2 c hcp
  · simp at h

theorem isIPv4_chars {cs : List Char} (h : isIPv4 cs = true) :
    ∀ c ∈ cs, c.isDigit = true ∨ c = '.' ∨ c = '/' := by
  intro c hc
  unfold isIPv4 at h
  split at h
  · rename_i addr heq
    rcases @mem_splitOnCh '/' _ _ hc with rfl | ⟨p, hp, hcp⟩
    · exact Or.inr (Or.inr rfl)
    · rw [heq] at hp
      rcases List.mem_singleton.mp hp with rfl
      rcases isQuad_chars h c hcp with hd | hd
      · exact Or.inl hd
      · exact Or.inr (Or.inl hd)
  · rename_i addr p' heq
    rw [Bool.and_eq_true_iff] at h
    rcases @mem_splitOnCh '/' _ _ hc with rfl | ⟨p, hp, hcp⟩
    · exact Or.inr (Or.inr rfl)
    · rw [heq] at hp
      rcases List.mem_cons.mp hp with rfl | hp2
      · rcases isQuad_chars h.1 c hcp with hd | hd
        · exact Or.inl hd
        · exact Or.inr (Or.inl hd)
      · rcases List.mem_singleton.mp hp2 with rfl
        exact Or.inl (isPre32_digit h.2 c hcp)
  · simp at h

theorem isHexGroup_chars {g : List Char} (h : isHexGroup g = true) :
    ∀ c ∈ g, hexDigit c = true := by
  unfold isHexGroup at h
  rw [Bool.and_eq_true_iff] at h
  intro c hc
  have := h.2
  rw [List.all_eq_true] at this
  exact this c hc

theorem hexDigit_of_digit {c : Char} (h : c.isDigit = true) : hexDigit c = true := by
  unfold hexDigit
  rw [h]
  rfl

theorem isV6Addr_chars {addr : List Char} (h : isV6Addr addr = true) :
    ∀ c ∈ addr, hexDigit c = true ∨ c = ':' := by
  intro c hc
  simp only [isV6Addr] at h
  rcases @mem_splitOnCh ':' _ _ hc with rfl | ⟨p, hp, hcp⟩
  · exact Or.inr rfl
  · left
    rcases Bool.or_eq_true_iff.mp h with h' | hC
    · rcases Bool.or_eq_true_iff.mp h' with hA | hB
      · rw [Bool.and_eq_true_iff] at hA
        have := hA.2
        rw [List.all_eq_true] at this
        exact isHexGroup_chars (this p hp) c hcp
      · split at hB
        · rename_i gs heq
          rw [heq] at hp
          rcases List.mem_cons.mp hp with rfl | hp2
          · simp at hcp
          · rcases List.mem_cons.mp hp2 with rfl | hp3
            · simp at hcp
            · rw [Bool.and_eq_true_iff, Bool.and_eq_true_iff] at hB
              have := hB.2
              rw [List.all_eq_true] at this
              exact isHexGroup_chars (this p hp3) c hcp
        · simp at hB
    · split at hC
      · rename_i rev heq
        have hp' : p ∈ [] :: [] :: rev := by
          rw [← heq]
          exact List.mem_reverse.mpr hp
        rcases List.mem_cons.mp hp' with rfl | hp2
        · simp at hcp
        · rcases List.mem_cons.mp hp2 with rfl | hp3
          · simp at hcp
          · rw [Bool.and_eq_true_iff, Bool.and_eq_true_iff] at hC
            have := hC.2
            rw [List.all_eq_true] at this
            exact isHexGroup_chars (this p hp3) c hcp
      · simp at hC

theorem isIPv6_chars {cs : List Char} (h : isIPv6 cs = true) :
    ∀ c ∈ cs, hexDigit c = true ∨ c = ':' ∨ c = '/' := by
  intro c hc
  unfold isIPv6 at h
  split at h
  · rename_i addr heq
    rcases @mem_splitOnCh '/' _ _ hc with rfl | ⟨p, hp, hcp⟩
    · exact Or.inr (Or.inr rfl)
    · rw [heq] at hp
      rcases List.mem_singleton.mp hp with rfl
      rcases isV6Addr_chars h c hcp with hd | hd
      · exact Or.inl hd
      · exact Or.inr (Or.inl hd)
  · rename_i addr p' heq
    rw [Bool.and_eq_true_iff] at h
    rcases @mem_splitOnCh '/' _ _ hc with rfl | ⟨p, hp, hcp⟩
    · exact Or.inr (Or.inr rfl)
    · rw [heq] at hp
      rcases List.mem_cons.mp hp with rfl | hp2
      · rcases isV6Addr_chars h.1 c hcp with hd | hd
        · exact Or.inl hd
        · exact Or.inr (Or.inl hd)
      · rcases List.mem_singleton.mp hp2 with rfl
        exact Or.inl (hexDigit_of_digit (isPre128_digit h.2 c hcp))
  · simp at h

theorem isIPv4_no_colon {cs : List Char} (h : isIPv4 cs = true) : ':' ∉ cs := by
  intro hc
  rcases isIPv4_chars h ':' hc with hd | hd | hd
  · exact absurd hd (by decide)
  · exact absurd hd (by decide)
  · exact absurd hd (by decide)

theorem isV6Addr_false_of_no_colon {addr : List Char} (h : ':' ∉ addr) :
    isV6Addr addr = false := by
  simp only [isV6Addr]
  rw [splitOnCh_no_sep h]
  cases addr with
  | nil => rfl
  | cons a l => rfl

theorem isIPv6_eq_false_of_v4 {cs : List Char} (h4 : isIPv4 cs = true) :
    isIPv6 cs = false := by
  have hnc := isIPv4_no_colon h4
  unfold isIPv6
  split
  · rename_i addr heq
    refine isV6Addr_false_of_no_colon fun hca => ?_
    refine hnc (@splitOnCh_part_mem '/' _ _ ?_ ':' hca)
    rw [heq]
    exact List.mem_singleton_self addr
  · rename_i addr p heq
    have : isV6Addr addr = false := by
      refine isV6Addr_false_of_no_colon fun hca => ?_
      refine hnc (@splitOnCh_part_mem '/' _ _ ?_ ':' hca)
      rw [heq]
      exact List.mem_cons_self addr [p]
    rw [this]
    rfl
  · rfl

end RulesEngine

namespace RulesEngine

theorem comma_toNat : (',' : Char).toNat = 44 := rfl

theorem digit_val {c : Char} (h : c.isDigit = true) : valChar c = true ∧ c ≠ ',' := by
  obtain ⟨h1, h2⟩ := isDigit_toNat h
  exact ⟨valChar_of_toNat (by omega) (by omega),
    ne_of_toNat_ne (by rw [comma_toNat]; omega)⟩

theorem alpha_val {c : Char} (h : c.isAlpha = true) : valChar c = true ∧ c ≠ ',' := by
  rcases isAlpha_toNat h with ⟨h1, h2⟩ | ⟨h1, h2⟩ <;>
    exact ⟨valChar_of_toNat (by omega) (by omega),
      ne_of_toNat_ne (by rw [comma_toNat]; omega)⟩

theorem hex_val {c : Char} (h : hexDigit c = true) : valChar c = true ∧ c ≠ ',' := by
  rcases hexDigit_toNat h with ⟨h1, h2⟩ | ⟨h1, h2⟩ | ⟨h1, h2⟩ <;>
    exact ⟨valChar_of_toNat (by omega) (by omega),
      ne_of_toNat_ne (by rw [comma_toNat]; omega)⟩

theorem domNameChar_val {c : Char} (h : domNameChar c = true) :
    valChar c = true ∧ c ≠ ',' := by
  unfold domNameChar at h
  rcases Bool.or_eq_true_iff.mp h with h' | hdash
  · rcases Bool.or_eq_true_iff.mp h' with han | hdot
    · unfold Char.isAlphanum at han
      rcases Bool.or_eq_true_iff.mp han with ha | hd
      · exact alpha_val ha
      · exact digit_val hd
    · rw [beq_iff_eq.mp hdot]
      exact ⟨by decide, by decide⟩
  · rw [beq_iff_eq.mp hdash]
    exact ⟨by decide, by decide⟩

theorem isIPv4_val {cs : List Char} (h : isIPv4 cs = true) :
    ∀ c ∈ cs, valChar c = true ∧ c ≠ ',' := by
  intro c hc
  rcases isIPv4_chars h c hc with hd | hd | hd
  · exact digit_val hd
  · subst hd
    exact ⟨by decide, by decide⟩
  · subst hd
    exact ⟨by decide, by decide⟩

theorem isIPv6_val {cs : List Char} (h : isIPv6 cs = true) :
    ∀ c ∈ cs, valChar c = true ∧ c ≠ ',' := by
  intro c hc
  rcases isIPv6_chars h c hc with hd | hd | hd
  · exact hex_val hd
  · subst hd
    exact ⟨by decide, by decide⟩
  · subst hd
    exact ⟨by decide, by decide⟩

theorem domainOnly_val {cs : List Char} (h : domainOnly cs = true) :
    ∀ c ∈ cs, valChar c = true ∧ c ≠ ',' := by
  unfold domainOnly at h
  rw [List.any_eq_true] at h
  obtain ⟨i, hi, hcond⟩ := h
  simp only [Bool.and_eq_true_iff] at hcond
  obtain ⟨⟨⟨⟨hne, hdom⟩, hdot⟩, hlen⟩, halpha⟩ := hcond
  have hlt : i < cs.length := by
    rw [List.mem_range] at hi
    exact hi
  intro c hc
  rw [show cs = cs.take i ++ cs.drop i from (List.take_append_drop i cs).symm] at hc
  rcases List.mem_append.mp hc with hc1 | hc2
  · rw [List.all_eq_true] at hdom
    exact domNameChar_val (hdom c hc1)
  · rw [List.drop_eq_getElem_cons hlt] at hc2
    rcases List.mem_cons.mp hc2 with rfl | hc3
    · have : cs.get? i = some '.' := by
        rw [beq_iff_eq] at hdot
        exact hdot
      rw [List.get?_eq_getElem? , List.getElem?_eq_getElem hlt] at this
      rw [Option.some.injEq] at this
      rw [this]
      exact ⟨by decide, by decide⟩
    · rw [List.all_eq_true] at halpha
      exact alpha_val (halpha c hc3)

end RulesEngine

namespace RulesEngine

/-- A typed keyword match yields a value that came from `sepVal` on some suffix. -/
theorem tryType_inv {t : RuleType} {cs : List Char} {p : RuleType × List Char}
    (h : tryType t cs = some p) : ∃ rest, sepVal rest = some p.2 := by
  unfold tryType at h
  cases hs : stripKind (typeChars t) cs with
  | none => rw [hs] at h; simp at h
  | some rest =>
    rw [hs, Option.map_eq_some'] at h
    obtain ⟨w, hw, heq⟩ := h
    exact ⟨rest, by rw [hw, ← heq]⟩

/-- Value invariants of `typedMatch`: nonempty, valid chars, no leading comma
(except the degenerate capture `,`). -/
theorem typedMatch_inv {cs : List Char} {p : RuleType × List Char}
    (h : typedMatch cs = some p) :
    p.2 ≠ [] ∧ (∀ c ∈ p.2, valChar c = true) ∧ (p.2.head? ≠ some ',' ∨ p.2 = [',']) := by
  unfold typedMatch at h
  obtain ⟨a, _, ha⟩ := List.exists_of_findSome?_eq_some h
  obtain ⟨rest, hrest⟩ := tryType_inv ha
  exact sepVal_inv hrest

theorem head_ne_comma_of_val {l : List Char} (hval : ∀ c ∈ l, valChar c = true ∧ c ≠ ',') :
    l.head? ≠ some ',' := by
  cases l with
  | nil => simp
  | cons a r =>
    intro hh
    rw [List.head?_cons, Option.some.injEq] at hh
    exact (hval a (List.mem_cons_self a r)).2 hh

theorem map_toLower_head {l : List Char} (hh : l.head? ≠ some ',') :
    (l.map Char.toLower).head? ≠ some ',' := by
  cases l with
  | nil => simp
  | cons a r =>
    intro hc
    simp only [List.map_cons, List.head?_cons, Option.some.injEq] at hc
    refine toLower_ne_comma (fun ha => ?_) hc
    exact hh (by rw [List.head?_cons, ha])

/-- Value invariants of the parser output: the stored value is nonempty, consists of
non-whitespace non-`#` characters, does not start with a comma (except the degenerate
capture `,`), is lowercase-stable for domain kinds, and is a valid dotted IPv4 (and
not IPv6) when the stored type is IP-CIDR. -/
theorem parse_out_inv {line : String} {t : RuleType} {v : String}
    (h : parseLine line = some (t, v)) :
    v.data ≠ [] ∧ (∀ c ∈ v.data, valChar c = true) ∧
      (v.data.head? ≠ some ',' ∨ v.data = [',']) ∧
      (domainKind t = true → v.data.map Char.toLower = v.data) ∧
      (t = .IP_CIDR → isIPv4 v.data = true ∧ isIPv6 v.data = false) := by
  simp only [parseLine] at h
  split at h
  · exact absurd h (by simp)
  · split at h
    · exact absurd h (by simp)
    · split at h
      · rename_i t0 rawv hm
        obtain ⟨hrne, hrval, hrhead⟩ := typedMatch_inv hm
        dsimp only at hrne hrval hrhead
        have htr : trimChars rawv = rawv :=
          trimChars_eq_self_of_all (fun c hc => valChar_not_ws (hrval c hc))
        rw [htr] at h
        split at h
        · exact absurd h (by simp)
        · split at h
          · rename_i hdk
            rw [Option.some.injEq, Prod.mk.injEq] at h
            obtain ⟨ht, hv⟩ := h
            subst ht
            have hvd : v.data = rawv.map Char.toLower := by rw [← hv]
            refine ⟨?_, ?_, ?_, ?_, ?_⟩
            · rw [hvd]
              simp [hrne]
            · rw [hvd]
              intro c hc
              obtain ⟨c', hc', rfl⟩ := List.mem_map.mp hc
              exact valChar_toLower (hrval c' hc')
            · rcases hrhead with hh | hh
              · left
                rw [hvd]
                exact map_toLower_head hh
              · right
                rw [hvd, hh]
                decide
            · intro _
              rw [hvd]
              exact map_toLower_idem rawv
            · intro habs
              subst habs
              simp [domainKind] at hdk
          · rename_i hdk
            split at h
            · rename_i hip
              split at h
              · rename_i h6
                rw [Option.some.injEq, Prod.mk.injEq] at h
                obtain ⟨ht, hv⟩ := h
                subst ht
                have hvd : v.data = rawv := by rw [← hv]
                refine ⟨hvd ▸ hrne, hvd ▸ hrval, hvd ▸ hrhead, ?_, ?_⟩
                · intro habs
                  exact absurd habs (by decide)
                · intro habs
                  exact absurd habs (by decide)
              · rename_i h6
                split at h
                · rename_i h4
                  rw [Option.some.injEq, Prod.mk.injEq] at h
                  obtain ⟨ht, hv⟩ := h
                  subst ht
                  have hvd : v.data = rawv := by rw [← hv]
                  refine ⟨hvd ▸ hrne, hvd ▸ hrval, hvd ▸ hrhead, ?_, ?_⟩
                  · intro habs
                    exact absurd habs (by decide)
                  · intro _
                    rw [hvd]
                    exact ⟨h4, Bool.eq_false_iff.mpr h6⟩
                · exact absurd h (by simp)
            · rename_i hip
              rw [Option.some.injEq, Prod.mk.injEq] at h
              obtain ⟨ht, hv⟩ := h
              subst ht
              have hvd : v.data = rawv := by rw [← hv]
              refine ⟨hvd ▸ hrne, hvd ▸ hrval, hvd ▸ hrhead, ?_, ?_⟩
              · intro habs
                exact absurd habs hdk
              · intro habs
                exact absurd habs hip
      · rename_i hm
        split at h
        · rename_i hdo
          rw [Option.some.injEq, Prod.mk.injEq] at h
          obtain ⟨ht, hv⟩ := h
          subst ht
          have hlne : trimChars line.data ≠ [] := by
            intro habs
            rw [habs] at hdo
            exact absurd hdo (by decide)
          have hvd : v.data = (trimChars line.data).map Char.toLower := by rw [← hv]
          have hvals := domainOnly_val hdo
          refine ⟨?_, ?_, ?_, ?_, ?_⟩
          · rw [hvd]
            simp [hlne]
          · rw [hvd]
            intro c hc
            obtain ⟨c', hc', rfl⟩ := List.mem_map.mp hc
            exact valChar_toLower (hvals c' hc').1
          · left
            rw [hvd]
            exact map_toLower_head (head_ne_comma_of_val hvals)
          · intro _
            rw [hvd]
            exact map_toLower_idem _
          · intro habs
            exact absurd habs (by decide)
        · split at h
          · rename_i h4
            rw [Option.some.injEq, Prod.mk.injEq] at h
            obtain ⟨ht, hv⟩ := h
            subst ht
            have hvd : v.data = trimChars line.data := by rw [← hv]
            have hvals := isIPv4_val h4
            refine ⟨?_, ?_, ?_, ?_, ?_⟩
            · rw [hvd]
              intro habs
              rw [habs] at h4
              exact absurd h4 (by decide)
            · rw [hvd]
              exact fun c hc => (hvals c hc).1
            · left
              rw [hvd]
              exact head_ne_comma_of_val hvals
            · intro habs
              exact absurd habs (by decide)
            · intro _
              rw [hvd]
              exact ⟨h4, isIPv6_eq_false_of_v4 h4⟩
          · split at h
            · rename_i h6
              rw [Option.some.injEq, Prod.mk.injEq] at h
              obtain ⟨ht, hv⟩ := h
              subst ht
              have hvd : v.data = trimChars line.data := by rw [← hv]
              have hvals := isIPv6_val h6
              refine ⟨?_, ?_, ?_, ?_, ?_⟩
              · rw [hvd]
                intro habs
                rw [habs] at h6
                exact absurd h6 (by decide)
              · rw [hvd]
                exact fun c hc => (hvals c hc).1
              · left
                rw [hvd]
                exact head_ne_comma_of_val hvals
              · intro habs
                exact absurd habs (by decide)
              · intro habs
                exact absurd habs (by decide)
            · exact absurd h (by simp)

end RulesEngine

namespace RulesEngine

/-! ## Header search on generated artifacts -/

theorem chPrefix_self : ∀ (l xs : List Char), chPrefix l (l ++ xs) = true
  | [], _ => rfl
  | c :: cs, xs => by
    simp only [List.cons_append, chPrefix, beq_self_eq_true, Bool.true_and]
    exact chPrefix_self cs xs

theorem natToChars_digit (n : Nat) : ∀ c ∈ natToChars n, ∃ d, d < 10 ∧ c = digitChar d := by
  induction n using Nat.strong_induction_on with
  | _ n ih =>
    intro c hc
    unfold natToChars at hc
    by_cases h : n < 10
    · rw [dif_pos h] at hc
      simp only [List.mem_singleton] at hc
      exact ⟨n, h, hc⟩
    · rw [dif_neg h] at hc
      rcases List.mem_append.mp hc with h1 | h1
      · exact ih (n / 10) (Nat.div_lt_self (by omega) (by omega)) c h1
      · simp only [List.mem_singleton] at h1
        exact ⟨n % 10, Nat.mod_lt _ (by omega), h1⟩

theorem digitChar_ne_nl {d : Nat} (h : d < 10) : digitChar d ≠ '\n' := by
  apply ne_of_toNat_ne
  rw [digitChar, char_toNat_ofNat (Or.inl (by omega))]
  show 48 + d ≠ 10
  omega

theorem natToChars_ne_nl (n : Nat) : ∀ c ∈ natToChars n, c ≠ '\n' := by
  intro c hc
  obtain ⟨d, hd, rfl⟩ := natToChars_digit n c hc
  exact digitChar_ne_nl hd

theorem lazyEnd_cons₂ (c d : Char) (rest : List Char) :
    lazyEnd (c :: d :: rest) = if c = '\n' ∧ d ≠ '#' then 0 else 1 + lazyEnd (d :: rest) := rfl

theorem lazyEnd_cons_ne (c : Char) (l : List Char) (hc : c ≠ '\n') (hl : l ≠ []) :
    lazyEnd (c :: l) = 1 + lazyEnd l := by
  cases l with
  | nil => exact absurd rfl hl
  | cons d tail => rw [lazyEnd_cons₂, if_neg (by simp [hc])]

theorem lazyEnd_stop : ∀ (cur : List Char) (y : Char) (rest : List Char),
    '\n' ∉ cur → y ≠ '#' → lazyEnd (cur ++ '\n' :: y :: rest) = cur.length
  | [], y, rest, _, hy => by
    rw [List.nil_append, lazyEnd_cons₂, if_pos ⟨rfl, hy⟩]
    rfl
  | c :: cur, y, rest, hcur, hy => by
    have hc : c ≠ '\n' := fun he => hcur (he ▸ List.mem_cons_self c cur)
    rw [List.cons_append, lazyEnd_cons_ne c _ hc (by simp),
      lazyEnd_stop cur y rest (fun hm => hcur (List.mem_cons_of_mem c hm)) hy]
    simp [Nat.add_comm]

theorem lazyEnd_hash : ∀ (cur rest : List Char), '\n' ∉ cur →
    lazyEnd (cur ++ '\n' :: '#' :: rest) = cur.length + 1 + lazyEnd ('#' :: rest)
  | [], rest, _ => by
    rw [List.nil_append, lazyEnd_cons₂, if_neg (by simp)]
    simp
  | c :: cur, rest, hcur => by
    have hc : c ≠ '\n' := fun he => hcur (he ▸ List.mem_cons_self c cur)
    rw [List.cons_append, lazyEnd_cons_ne c _ hc (by simp),
      lazyEnd_hash cur rest (fun hm => hcur (List.mem_cons_of_mem c hm))]
    simp only [List.length_cons]
    omega

theorem lazyEnd_lines : ∀ (ls : List (List Char)) (cur : List Char) (y : Char)
    (rest : List Char), '\n' ∉ cur →
    (∀ l ∈ ls, l.head? = some '#' ∧ '\n' ∉ l) → y ≠ '#' →
    lazyEnd (cur ++ (ls.map (fun m => '\n' :: m)).flatten ++ '\n' :: y :: rest) =
      cur.length + ((ls.map (fun m => '\n' :: m)).flatten).length
  | [], cur, y, rest, hcur, _, hy => by
    simp only [List.map_nil, List.flatten_nil, List.append_nil, List.length_nil, Nat.add_zero]
    exact lazyEnd_stop cur y rest hcur hy
  | l :: ls, cur, y, rest, hcur, hls, hy => by
    obtain ⟨hhead, hnl⟩ := hls l (List.mem_cons_self l ls)
    cases l with
    | nil => simp at hhead
    | cons a l2 =>
      have ha : a = '#' := by
        rw [List.head?_cons, Option.some.injEq] at hhead
        exact hhead
      subst ha
      have hshape :
          cur ++ ((('#' :: l2) :: ls).map (fun m => '\n' :: m)).flatten ++ '\n' :: y :: rest =
            cur ++ '\n' :: '#' ::
              (l2 ++ (ls.map (fun m => '\n' :: m)).flatten ++ '\n' :: y :: rest) := by
        simp
      rw [hshape, lazyEnd_hash cur _ hcur]
      have hrec := lazyEnd_lines ls ('#' :: l2) y rest
        (fun hm => by
          rcases List.mem_cons.mp hm with h | h
          · exact absurd h.symm (by decide)
          · exact hnl (List.mem_cons_of_mem _ h)) 
        (fun m hm => hls m (List.mem_cons_of_mem _ hm)) hy
      have hrw : '#' :: (l2 ++ (ls.map (fun m => '\n' :: m)).flatten ++ '\n' :: y :: rest) =
          ('#' :: l2) ++ (ls.map (fun m => '\n' :: m)).flatten ++ '\n' :: y :: rest := by
        simp
      rw [hrw, hrec]
      simp only [List.map_cons, List.flatten_cons, List.length_append, List.length_cons]
      omega

theorem headerSearchAux_cons (c : Char) (rest : List Char) (b : Bool) :
    headerSearchAux (c :: rest) b =
      if b && chPrefix nameTag (c :: rest) then some (7 + lazyEnd ((c :: rest).drop 7))
      else headerSearchAux rest (c == '\n') := rfl

theorem headerSearchAux_nameTag (X : List Char) :
    headerSearchAux (nameTag ++ X) true = some (7 + lazyEnd X) := by
  have hx : nameTag ++ X = '#' :: ([' ', 'N', 'A', 'M', 'E', ':'] ++ X) := rfl
  rw [hx, headerSearchAux_cons, ← hx, chPrefix_self nameTag X]
  simp only [Bool.and_self]
  rw [if_true, show (7 : Nat) = nameTag.length from rfl, List.drop_left]

end RulesEngine

namespace RulesEngine

theorem typeChars_ne_nl (t : RuleType) : ∀ c ∈ typeChars t, c ≠ '\n' := by
  cases t <;> decide

theorem not_mem_append_chars {c : Char} {pre post : List Char}
    (h1 : c ∉ pre) (h2 : c ∉ post) : c ∉ pre ++ post := by
  intro hm
  rcases List.mem_append.mp hm with h | h
  · exact h1 h
  · exact h2 h

theorem headerLines_tail_props (name now : String) (stats : RuleType → Nat)
    (hw : '\n' ∉ now.data) :
    ∀ l ∈ (headerLinesOf name now stats).tail, l.head? = some '#' ∧ '\n' ∉ l := by
  intro l hl
  rw [show (headerLinesOf name now stats).tail =
      [('#' :: " AUTHOR: KuGouGo".data),
       ('#' :: " REPO: https://github.com/KuGouGo/Rules".data),
       ('#' :: " UPDATED: ".data ++ now.data)]
      ++ (TYPE_ORDER.filter (fun t => decide (0 < stats t))).map
          (fun t => countChars t (stats t))
      ++ [('#' :: " TOTAL: ".data) ++
            natToChars (((TYPE_ORDER.filter (fun t => decide (0 < stats t))).map stats).sum)]
    from rfl] at hl
  rcases List.mem_append.mp hl with hl | hl
  · rcases List.mem_append.mp hl with hl | hl
    · rcases List.mem_cons.mp hl with hl | hl
      · subst hl
        exact ⟨rfl, by decide⟩
      rcases List.mem_cons.mp hl with hl | hl
      · subst hl
        exact ⟨rfl, by decide⟩
      rcases List.mem_cons.mp hl with hl | hl
      · subst hl
        exact ⟨rfl, not_mem_append_chars (by decide) hw⟩
      · exact absurd hl (List.not_mem_nil l)
    · obtain ⟨t, _, rfl⟩ := List.mem_map.mp hl
      refine ⟨rfl, ?_⟩
      unfold countChars
      refine not_mem_append_chars (not_mem_append_chars (not_mem_append_chars
        (by decide) ?_) (by decide)) ?_
      · intro hm
        exact typeChars_ne_nl t '\n' hm rfl
      · intro hm
        exact natToChars_ne_nl _ '\n' hm rfl
  · rcases List.mem_cons.mp hl with hl | hl
    · subst hl
      refine ⟨rfl, not_mem_append_chars (by decide) ?_⟩
      intro hm
      exact natToChars_ne_nl _ '\n' hm rfl
    · exact absurd hl (List.not_mem_nil l)

theorem loadChars_eq_some {cs : List Char} {n : Nat}
    (h : headerSearchAux cs true = some n) :
    loadChars cs = (cs.drop n).dropWhile (· == '\n') := by
  unfold loadChars
  rw [h]

/-- `_load_content` on `# NAME:`-headed text whose subsequent header lines all
start with `#`: the match covers the whole block, the following newline is
stripped, and the tail survives unchanged. -/
theorem loadChars_hash_block (nm : List Char) (ls : List (List Char)) (y : Char)
    (tail : List Char) (hnm : '\n' ∉ nm)
    (hls : ∀ l ∈ ls, l.head? = some '#' ∧ '\n' ∉ l) (hy1 : y ≠ '#') (hy2 : y ≠ '\n') :
    loadChars (nameTag ++
        (nm ++ (ls.map (fun m => '\n' :: m)).flatten ++ '\n' :: y :: tail)) =
      y :: tail := by
  have hsearch : headerSearchAux (nameTag ++
      (nm ++ (ls.map (fun m => '\n' :: m)).flatten ++ '\n' :: y :: tail)) true =
      some (7 + (nm.length + ((ls.map (fun m => '\n' :: m)).flatten).length)) := by
    rw [headerSearchAux_nameTag, lazyEnd_lines ls nm y tail hnm hls hy1]
  rw [loadChars_eq_some hsearch]
  rw [show (7 : Nat) = nameTag.length from rfl, List.drop_append]
  rw [List.append_assoc, List.drop_append, List.drop_left]
  rw [List.dropWhile_cons, if_pos (by decide), List.dropWhile_cons,
    if_neg (by simp [hy2])]

/-- `_load_content` applied to a freshly generated artifact returns exactly the
rule-line section. -/
theorem loadChars_header_append (name now : String) (stats : RuleType → Nat)
    (y : Char) (tail : List Char)
    (hn : '\n' ∉ name.data) (hw : '\n' ∉ now.data) (hy1 : y ≠ '#') (hy2 : y ≠ '\n') :
    loadChars (generateHeader name now stats ++ y :: tail) = y :: tail := by
  have hcur : '\n' ∉ (' ' :: name.data) := by
    intro hm
    rcases List.mem_cons.mp hm with hm | hm
    · exact absurd hm.symm (by decide)
    · exact hn hm
  have hshape : generateHeader name now stats ++ y :: tail =
      nameTag ++ ((' ' :: name.data) ++
        (((headerLinesOf name now stats).tail).map (fun m => '\n' :: m)).flatten ++
          '\n' :: y :: tail) := by
    unfold generateHeader
    rw [show headerLinesOf name now stats =
        (nameTag ++ (' ' :: name.data)) :: (headerLinesOf name now stats).tail from rfl]
    show ((nameTag ++ (' ' :: name.data)) ++
        ((((headerLinesOf name now stats).tail ++ [[]]).map (fun m => '\n' :: m)).flatten))
        ++ y :: tail = _
    simp
  rw [hshape]
  exact loadChars_hash_block (' ' :: name.data) _ y tail hcur
    (headerLines_tail_props name now stats hw) hy1 hy2

end RulesEngine

namespace RulesEngine

/-! ## Splitting the generated rule section back into lines -/

theorem splitlinesAux_line : ∀ (l acc rest : List Char),
    (∀ c ∈ l, c ≠ '\n' ∧ c ≠ '\r') →
    splitlinesAux (l ++ '\n' :: rest) acc = (acc.reverse ++ l) :: splitlinesAux rest []
  | [], acc, rest, _ => by
    simp [splitlinesAux]
  | c :: l, acc, rest, h => by
    have h1 : c ≠ '\n' := (h c (List.mem_cons_self c l)).1
    have h2 : c ≠ '\r' := (h c (List.mem_cons_self c l)).2
    rw [List.cons_append,
      show splitlinesAux (c :: (l ++ '\n' :: rest)) acc =
        splitlinesAux (l ++ '\n' :: rest) (c :: acc) from by simp [splitlinesAux, h1, h2],
      splitlinesAux_line l (c :: acc) rest (fun d hd => h d (List.mem_cons_of_mem c hd))]
    simp

theorem splitlines_join : ∀ (ls : List (List Char)),
    (∀ l ∈ ls, ∀ c ∈ l, c ≠ '\n' ∧ c ≠ '\r') →
    splitlines ((ls.map (fun l => l ++ ['\n'])).flatten) = ls
  | [], _ => rfl
  | l :: ls, h => by
    show splitlinesAux ((l ++ ['\n']) ++ (ls.map (fun m => m ++ ['\n'])).flatten) [] = l :: ls
    rw [show (l ++ ['\n']) ++ (ls.map (fun m => m ++ ['\n'])).flatten =
        l ++ '\n' :: (ls.map (fun m => m ++ ['\n'])).flatten from by simp,
      splitlinesAux_line l [] _ (h l (List.mem_cons_self l ls))]
    rw [show splitlinesAux ((ls.map (fun m => m ++ ['\n'])).flatten) [] =
        splitlines ((ls.map (fun m => m ++ ['\n'])).flatten) from rfl,
      splitlines_join ls (fun m hm => h m (List.mem_cons_of_mem l hm))]
    simp

/-! ## Structure of the rule-line section -/

theorem mem_sectionLines {sr : RuleType → List String} {l : List Char}
    (hl : l ∈ sectionLines sr) : ∃ t v, t ∈ TYPE_ORDER ∧ v ∈ sr t ∧ l = lineFor t v := by
  unfold sectionLines at hl
  rw [List.mem_flatten] at hl
  obtain ⟨m, hm, hlm⟩ := hl
  obtain ⟨t, ht, rfl⟩ := List.mem_map.mp hm
  obtain ⟨v, hv, rfl⟩ := List.mem_map.mp hlm
  exact ⟨t, v, ht, hv, rfl⟩

theorem typeChars_char_props (t : RuleType) : ∀ c ∈ typeChars t, c ≠ '\n' ∧ c ≠ '\r' := by
  cases t <;> decide

theorem ne_nl_of_val {c : Char} (h : valChar c = true) : c ≠ '\n' ∧ c ≠ '\r' := by
  constructor
  · intro he
    rw [he] at h
    exact absurd h (by decide)
  · intro he
    rw [he] at h
    exact absurd h (by decide)

theorem lineFor_char_props {t : RuleType} {v : String}
    (hv : ∀ c ∈ v.data, valChar c = true) :
    ∀ c ∈ lineFor t v, c ≠ '\n' ∧ c ≠ '\r' := by
  intro c hc
  unfold lineFor at hc
  rcases List.mem_append.mp hc with h | h
  · exact typeChars_char_props t c h
  · rcases List.mem_cons.mp h with h | h
    · subst h
      exact ⟨by decide, by decide⟩
    · exact ne_nl_of_val (hv c h)

/-! ## Where `rules_data` values come from -/

theorem mem_addRule {rd : RuleType → List String} {t t' : RuleType} {v w : String}
    (h : w ∈ addRule rd t v t') : w ∈ rd t' ∨ (t' = t ∧ w = v) := by
  unfold addRule at h
  by_cases ht : t' = t
  · rw [if_pos ht] at h
    rcases mem_sinsert.mp h with h | h
    · exact Or.inr ⟨ht, h⟩
    · exact Or.inl h
  · rw [if_neg ht] at h
    exact Or.inl h

theorem classifyStep_parse_fst {acc : (RuleType → List String) × Nat} {l : List Char}
    {t1 : RuleType} {v1 : String} (hp : parseLine ⟨l⟩ = some (t1, v1)) :
    (classifyStep acc l).1 = addRule acc.1 t1 v1 := by
  unfold classifyStep
  rw [hp]

theorem classifyStep_none_fst {acc : (RuleType → List String) × Nat} {l : List Char}
    (hp : parseLine ⟨l⟩ = none) : (classifyStep acc l).1 = acc.1 := by
  unfold classifyStep
  rw [hp]
  split
  · rename_i heq
    exact absurd heq (by simp)
  · split <;> rfl

theorem mem_foldl_classify : ∀ (ls : List (List Char))
    (acc : (RuleType → List String) × Nat) (t : RuleType) (v : String),
    v ∈ (ls.foldl classifyStep acc).1 t →
    v ∈ acc.1 t ∨ ∃ l ∈ ls, parseLine ⟨l⟩ = some (t, v)
  | [], _, _, _, h => Or.inl h
  | l :: ls, acc, t, v, h => by
    rw [List.foldl_cons] at h
    rcases mem_foldl_classify ls (classifyStep acc l) t v h with h | ⟨m, hm, hp⟩
    · cases hp : parseLine ⟨l⟩ with
      | some p =>
        obtain ⟨t1, v1⟩ := p
        rw [classifyStep_parse_fst hp] at h
        rcases mem_addRule h with h | ⟨ht, hv⟩
        · exact Or.inl h
        · right
          refine ⟨l, List.mem_cons_self l ls, ?_⟩
          rw [hp, ht, hv]
      | none =>
        rw [classifyStep_none_fst hp] at h
        exact Or.inl h

    · exact Or.inr ⟨m, List.mem_cons_of_mem l hm, hp⟩

theorem mem_rulesDataOf {raw : String} {t : RuleType} {v : String}
    (h : v ∈ rulesDataOf raw t) : ∃ line : String, parseLine line = some (t, v) := by
  unfold rulesDataOf classifyContent at h
  rcases mem_foldl_classify _ _ _ _ h with h | ⟨l, _, hl⟩
  · exact absurd h (List.not_mem_nil v)
  · exact ⟨⟨l⟩, hl⟩

/-! ## The filter stage only removes values -/

theorem foldl_suffixStep_subset : ∀ (l acc : List String) (v : String),
    v ∈ l.foldl suffixStep acc → v ∈ acc ∨ v ∈ l
  | [], _, _, h => Or.inl h
  | x :: xs, acc, v, h => by
    rw [List.foldl_cons] at h
    rcases foldl_suffixStep_subset xs (suffixStep acc x) v h with h | h
    · unfold suffixStep at h
      split at h
      · exact Or.inl h
      · rcases mem_sinsert.mp h with h | h
        · exact Or.inr (h ▸ List.mem_cons_self x xs)
        · exact Or.inl h
    · exact Or.inr (List.mem_cons_of_mem x h)

theorem filterRedundantSuffixes_subset {S : List String} {v : String}
    (h : v ∈ filterRedundantSuffixes S) : v ∈ S := by
  unfold filterRedundantSuffixes at h
  split at h
  · exact h
  · rcases foldl_suffixStep_subset _ _ _ h with h | h
    · exact absurd h (List.not_mem_nil v)
    · exact (List.perm_insertionSort keyLE S).mem_iff.mp h

theorem dedupDomains_subset {D S : List String} {v : String}
    (h : v ∈ dedupDomains D S) : v ∈ D := by
  unfold dedupDomains at h
  split at h
  · exact h
  · exact List.mem_of_mem_filter h

theorem filterStage_subset (rd : RuleType → List String) (t : RuleType) (v : String)
    (h : v ∈ filterStage rd t) : v ∈ rd t := by
  unfold filterStage at h
  cases t with
  | DOMAIN =>
    simp only at h
    split at h
    · exact dedupDomains_subset h
    · exact h
  | DOMAIN_SUFFIX =>
    simp only at h
    split at h
    · exact filterRedundantSuffixes_subset h
    · exact h
  | DOMAIN_KEYWORD => exact h
  | IP_CIDR => exact h
  | IP_CIDR6 => exact h

/-- Every value in the final sorted rule set was produced by the parser for its
kind, so it satisfies the parser-output invariants. -/
theorem finalSortedOf_parsed {raw : String} {t : RuleType} {v : String}
    (h : v ∈ finalSortedOf raw t) : ∃ line : String, parseLine line = some (t, v) := by
  unfold finalSortedOf sortedRulesOf at h
  have h2 : v ∈ finalRulesOf raw t := (List.perm_insertionSort strLE _).mem_iff.mp h
  exact mem_rulesDataOf (filterStage_subset _ t v h2)

end RulesEngine

namespace RulesEngine

/-! ## Re-classifying the generated rule lines -/

theorem classifyStep_lineFor {acc : (RuleType → List String) × Nat} {t : RuleType}
    {v : String} (hp : parseLine ⟨lineFor t v⟩ = some (t, v)) :
    classifyStep acc (lineFor t v) = (addRule acc.1 t v, acc.2) := by
  unfold classifyStep
  rw [hp]

theorem foldl_classify_kind : ∀ (vs : List String)
    (acc : (RuleType → List String) × Nat) (t : RuleType),
    (∀ v ∈ vs, parseLine ⟨lineFor t v⟩ = some (t, v)) →
    (vs.map (lineFor t)).foldl classifyStep acc =
      (fun t' => if t' = t then vs.foldl (fun l w => sinsert w l) (acc.1 t) else acc.1 t',
        acc.2)
  | [], acc, t, _ => by
    simp only [List.map_nil, List.foldl_nil]
    refine Prod.ext ?_ rfl
    funext t'
    show acc.1 t' = if t' = t then acc.1 t else acc.1 t'
    by_cases h : t' = t
    · rw [if_pos h, h]
    · rw [if_neg h]
  | v :: vs, acc, t, hp => by
    rw [List.map_cons, List.foldl_cons,
      classifyStep_lineFor (hp v (List.mem_cons_self v vs)),
      foldl_classify_kind vs _ t (fun w hw => hp w (List.mem_cons_of_mem v hw))]
    refine Prod.ext ?_ rfl
    funext t'
    show (if t' = t then vs.foldl (fun l w => sinsert w l) (addRule acc.1 t v t)
        else addRule acc.1 t v t') =
      if t' = t then (v :: vs).foldl (fun l w => sinsert w l) (acc.1 t) else acc.1 t'
    have haddt : addRule acc.1 t v t = sinsert v (acc.1 t) := by
      unfold addRule
      rw [if_pos rfl]
    by_cases h : t' = t
    · rw [if_pos h, if_pos h, haddt, List.foldl_cons]
    · rw [if_neg h, if_neg h]
      unfold addRule
      rw [if_neg h]

theorem classify_kinds (sr : RuleType → List String) : ∀ (ts : List RuleType)
    (acc : (RuleType → List String) × Nat), ts.Nodup →
    (∀ t ∈ ts, ∀ v ∈ sr t, parseLine ⟨lineFor t v⟩ = some (t, v)) →
    ((ts.map (fun t => (sr t).map (lineFor t))).flatten.foldl classifyStep acc).1 =
      fun t' => if t' ∈ ts then (sr t').foldl (fun l w => sinsert w l) (acc.1 t')
        else acc.1 t'
  | [], acc, _, _ => by
    funext t'
    simp
  | t :: ts, acc, hnd, hp => by
    rw [List.map_cons, List.flatten_cons, List.foldl_append,
      foldl_classify_kind (sr t) acc t (hp t (List.mem_cons_self t ts)),
      classify_kinds sr ts _ hnd.of_cons (fun u hu => hp u (List.mem_cons_of_mem t hu))]
    have htts : t ∉ ts := (List.nodup_cons.mp hnd).1
    funext t'
    show (if t' ∈ ts then (sr t').foldl (fun l w => sinsert w l)
          (if t' = t then (sr t).foldl (fun l w => sinsert w l) (acc.1 t) else acc.1 t')
        else (if t' = t then (sr t).foldl (fun l w => sinsert w l) (acc.1 t)
          else acc.1 t')) =
      if t' ∈ t :: ts then (sr t').foldl (fun l w => sinsert w l) (acc.1 t') else acc.1 t'
    by_cases h1 : t' ∈ ts
    · have hne : t' ≠ t := fun he => htts (he ▸ h1)
      rw [if_pos h1, if_neg hne, if_pos (List.mem_cons_of_mem t h1)]
    · rw [if_neg h1]
      by_cases h2 : t' = t
      · subst h2
        rw [if_pos rfl, if_pos (List.mem_cons_self t' ts)]
      · rw [if_neg h2, if_neg (fun hm => by
          rcases List.mem_cons.mp hm with hm | hm
          · exact h2 hm
          · exact h1 hm)]

theorem foldl_sinsert_nodup : ∀ (vs acc : List String), vs.Nodup →
    (∀ v ∈ vs, v ∉ acc) → vs.foldl (fun l w => sinsert w l) acc = acc ++ vs
  | [], acc, _, _ => by simp
  | v :: vs, acc, hnd, hdis => by
    rw [List.foldl_cons,
      show sinsert v acc = acc ++ [v] from by
        unfold sinsert
        rw [if_neg (hdis v (List.mem_cons_self v vs))],
      foldl_sinsert_nodup vs (acc ++ [v]) hnd.of_cons (fun w hw hm => by
        rcases List.mem_append.mp hm with hm | hm
        · exact hdis w (List.mem_cons_of_mem v hw) hm
        · rcases List.mem_singleton.mp hm with rfl
          exact (List.nodup_cons.mp hnd).1 hw)]
    simp

theorem mem_TYPE_ORDER (t : RuleType) : t ∈ TYPE_ORDER := by
  cases t <;> decide

/-- Re-classifying the generated rule-line section reconstructs exactly the
rule set it was generated from. -/
theorem classifyContent_section (sr : RuleType → List String)
    (hparse : ∀ t, ∀ v ∈ sr t, parseLine ⟨lineFor t v⟩ = some (t, v))
    (hnd : ∀ t, (sr t).Nodup)
    (hchars : ∀ l ∈ sectionLines sr, ∀ c ∈ l, c ≠ '\n' ∧ c ≠ '\r') :
    (classifyContent ⟨sectionChars sr⟩).1 = sr := by
  unfold classifyContent
  rw [show (⟨sectionChars sr⟩ : String).data = sectionChars sr from rfl,
    show sectionChars sr = ((sectionLines sr).map (fun l => l ++ ['\n'])).flatten from rfl,
    splitlines_join _ hchars,
    show sectionLines sr = (TYPE_ORDER.map (fun t => (sr t).map (lineFor t))).flatten
      from rfl,
    classify_kinds sr TYPE_ORDER _ (by decide) (fun t _ => hparse t)]
  funext t'
  rw [if_pos (mem_TYPE_ORDER t'),
    foldl_sinsert_nodup _ [] (hnd t') (fun v _ hf => (List.not_mem_nil v) hf)]
  exact List.nil_append _

end RulesEngine

namespace RulesEngine

/-! ## The filter stage is the identity on an already-filtered rule set -/

theorem filterStage_DS_eq (rd : RuleType → List String) :
    filterStage rd .DOMAIN_SUFFIX =
      if !(rd .DOMAIN_SUFFIX).isEmpty then filterRedundantSuffixes (rd .DOMAIN_SUFFIX)
      else rd .DOMAIN_SUFFIX := rfl

theorem filterStage_D_eq (rd : RuleType → List String) :
    filterStage rd .DOMAIN =
      if !(rd .DOMAIN).isEmpty && !(rd .DOMAIN_SUFFIX).isEmpty then
        dedupDomains (rd .DOMAIN)
          (if !(rd .DOMAIN_SUFFIX).isEmpty then filterRedundantSuffixes (rd .DOMAIN_SUFFIX)
           else rd .DOMAIN_SUFFIX)
      else rd .DOMAIN := rfl

theorem foldl_suffixStep_all : ∀ (l acc : List String),
    (∀ s ∈ l, ∀ e ∈ acc, ¬ suffixRed s e) → (∀ s ∈ l, ∀ e ∈ l, ¬ suffixRed s e) →
    (∀ s ∈ l, s ∉ acc) → l.Nodup →
    l.foldl suffixStep acc = acc ++ l
  | [], acc, _, _, _, _ => by simp
  | x :: xs, acc, hacc, hint, hdis, hnd => by
    have hany : acc.any (fun e => decide (suffixRed x e)) = false := by
      rw [List.any_eq_false]
      intro e he
      simpa using hacc x (List.mem_cons_self x xs) e he
    have hstep : suffixStep acc x = acc ++ [x] := by
      unfold suffixStep
      rw [hany, if_neg (by simp)]
      unfold sinsert
      rw [if_neg (hdis x (List.mem_cons_self x xs))]
    rw [List.foldl_cons, hstep,
      foldl_suffixStep_all xs (acc ++ [x])
        (fun s hs e he => by
          rcases List.mem_append.mp he with he | he
          · exact hacc s (List.mem_cons_of_mem x hs) e he
          · rw [List.mem_singleton.mp he]
            exact hint s (List.mem_cons_of_mem x hs) x (List.mem_cons_self x xs))
        (fun s hs e he =>
          hint s (List.mem_cons_of_mem x hs) e (List.mem_cons_of_mem x he))
        (fun s hs hm => by
          rcases List.mem_append.mp hm with hm | hm
          · exact hdis s (List.mem_cons_of_mem x hs) hm
          · have hsx : s = x := List.mem_singleton.mp hm
            subst hsx
            exact (List.nodup_cons.mp hnd).1 hs)
        hnd.of_cons]
    simp

theorem filterRedundantSuffixes_of_nored {S : List String} (hnd : S.Nodup)
    (h : ∀ s1 ∈ S, ∀ s2 ∈ S, ¬ suffixRed s1 s2) :
    (filterRedundantSuffixes S).Perm S := by
  unfold filterRedundantSuffixes
  split
  · exact List.Perm.refl S
  · have hperm := List.perm_insertionSort keyLE S
    rw [foldl_suffixStep_all (List.insertionSort keyLE S) []
      (fun s _ e he => absurd he (List.not_mem_nil e))
      (fun s hs e he => h s (hperm.mem_iff.mp hs) e (hperm.mem_iff.mp he))
      (fun s _ hm => absurd hm (List.not_mem_nil s))
      (hperm.nodup_iff.mpr hnd)]
    rw [List.nil_append]
    exact hperm

theorem dedupDomains_of_nocov {D S : List String}
    (h : ∀ d ∈ D, ∀ s ∈ S, ¬ coversDom s d) : dedupDomains D S = D := by
  unfold dedupDomains
  split
  · rfl
  · refine List.filter_eq_self.mpr (fun d hd => ?_)
    rw [Bool.not_eq_true', List.any_eq_false]
    intro s hs
    simpa using h d hd s hs

/-- On a rule set that is already filtered (no redundant suffixes, no covered
domains), nodup and sorted per kind, running the filter stage followed by the
per-kind sort returns the rule set unchanged. -/
theorem filterStage_sorted_id (sr : RuleType → List String)
    (hnd : ∀ t, (sr t).Nodup)
    (hsort : ∀ t, (sr t).Sorted strLE)
    (hnored : ∀ s1 ∈ sr .DOMAIN_SUFFIX, ∀ s2 ∈ sr .DOMAIN_SUFFIX, ¬ suffixRed s1 s2)
    (hnocov : ∀ d ∈ sr .DOMAIN, ∀ s ∈ sr .DOMAIN_SUFFIX, ¬ coversDom s d) :
    sortedRulesOf (filterStage sr) = sr := by
  have hdsperm : (filterStage sr .DOMAIN_SUFFIX).Perm (sr .DOMAIN_SUFFIX) := by
    rw [filterStage_DS_eq]
    split
    · exact filterRedundantSuffixes_of_nored (hnd .DOMAIN_SUFFIX) hnored
    · exact List.Perm.refl _
  have hdeq : filterStage sr .DOMAIN = sr .DOMAIN := by
    rw [filterStage_D_eq]
    split
    · rw [show (if !(sr .DOMAIN_SUFFIX).isEmpty then
            filterRedundantSuffixes (sr .DOMAIN_SUFFIX) else sr .DOMAIN_SUFFIX) =
          filterStage sr .DOMAIN_SUFFIX from (filterStage_DS_eq sr).symm]
      exact dedupDomains_of_nocov (fun d hd s hs =>
        hnocov d hd s (hdsperm.mem_iff.mp hs))
    · rfl
  funext t
  cases t with
  | DOMAIN =>
    show List.insertionSort strLE (filterStage sr .DOMAIN) = sr .DOMAIN
    rw [hdeq]
    exact List.Sorted.insertionSort_eq (hsort .DOMAIN)
  | DOMAIN_SUFFIX =>
    show List.insertionSort strLE (filterStage sr .DOMAIN_SUFFIX) = sr .DOMAIN_SUFFIX
    refine List.eq_of_perm_of_sorted
      ((List.perm_insertionSort strLE _).trans hdsperm)
      (List.sorted_insertionSort strLE _) (hsort .DOMAIN_SUFFIX)
  | DOMAIN_KEYWORD =>
    show List.insertionSort strLE (sr .DOMAIN_KEYWORD) = sr .DOMAIN_KEYWORD
    exact List.Sorted.insertionSort_eq (hsort .DOMAIN_KEYWORD)
  | IP_CIDR =>
    show List.insertionSort strLE (sr .IP_CIDR) = sr .IP_CIDR
    exact List.Sorted.insertionSort_eq (hsort .IP_CIDR)
  | IP_CIDR6 =>
    show List.insertionSort strLE (sr .IP_CIDR6) = sr .IP_CIDR6
    exact List.Sorted.insertionSort_eq (hsort .IP_CIDR6)

end RulesEngine

namespace RulesEngine

/-! ## First-run output properties needed for the second run -/

theorem finalSortedOf_reparse {raw : String} {t : RuleType} {v : String}
    (h : v ∈ finalSortedOf raw t) : parseLine ⟨lineFor t v⟩ = some (t, v) := by
  obtain ⟨line, hline⟩ := finalSortedOf_parsed h
  obtain ⟨hne, hval, hhead, hlow, hip⟩ := parse_out_inv hline
  exact parseLine_lineFor t v hne hval hhead hlow hip

theorem finalSortedOf_nodup (raw : String) (t : RuleType) :
    (finalSortedOf raw t).Nodup :=
  (List.perm_insertionSort strLE _).nodup_iff.mpr (finalRulesOf_nodup raw t)

theorem finalSortedOf_sorted (raw : String) (t : RuleType) :
    (finalSortedOf raw t).Sorted strLE :=
  List.sorted_insertionSort strLE _

theorem finalSortedOf_mem_filterStage {raw : String} {t : RuleType} {v : String}
    (h : v ∈ finalSortedOf raw t) : v ∈ filterStage (rulesDataOf raw) t :=
  (List.perm_insertionSort strLE _).mem_iff.mp h

theorem finalSortedOf_nored (raw : String) :
    ∀ s1 ∈ finalSortedOf raw .DOMAIN_SUFFIX, ∀ s2 ∈ finalSortedOf raw .DOMAIN_SUFFIX,
      ¬ suffixRed s1 s2 := fun s1 h1 s2 h2 =>
  filterStage_suffix_nored (rulesDataOf raw) s2 (finalSortedOf_mem_filterStage h2)
    s1 (finalSortedOf_mem_filterStage h1)

theorem finalSortedOf_nocov (raw : String) :
    ∀ d ∈ finalSortedOf raw .DOMAIN, ∀ s ∈ finalSortedOf raw .DOMAIN_SUFFIX,
      ¬ coversDom s d := fun d hd s hs =>
  filterStage_dom_nocov (rulesDataOf raw) d (finalSortedOf_mem_filterStage hd)
    s (finalSortedOf_mem_filterStage hs)

theorem sectionLines_chars (raw : String) :
    ∀ l ∈ sectionLines (finalSortedOf raw), ∀ c ∈ l, c ≠ '\n' ∧ c ≠ '\r' := by
  intro l hl
  obtain ⟨t, v, _, hv, rfl⟩ := mem_sectionLines hl
  obtain ⟨_, hval, _, _, _⟩ := parse_out_inv (finalSortedOf_reparse hv)
  exact lineFor_char_props hval

theorem sectionLines_ne_nil {raw : String} (hne : anyRules raw = true) :
    sectionLines (finalSortedOf raw) ≠ [] := by
  unfold anyRules at hne
  rw [List.any_eq_true] at hne
  obtain ⟨t, _, ht⟩ := hne
  intro hnil
  unfold sectionLines at hnil
  rw [List.flatten_eq_nil_iff] at hnil
  have hmap := hnil ((finalSortedOf raw t).map (lineFor t))
    (List.mem_map_of_mem _ (mem_TYPE_ORDER t))
  rw [List.map_eq_nil_iff] at hmap
  rw [hmap] at ht
  simp at ht

theorem sectionChars_head {sr : RuleType → List String} (hne : sectionLines sr ≠ []) :
    ∃ y tail, sectionChars sr = y :: tail ∧ y ≠ '#' ∧ y ≠ '\n' := by
  cases hsl : sectionLines sr with
  | nil => exact absurd hsl hne
  | cons l0 rest =>
    have hl0 : l0 ∈ sectionLines sr := by
      rw [hsl]
      exact List.mem_cons_self l0 rest
    obtain ⟨t, v, _, _, hline⟩ := mem_sectionLines hl0
    unfold sectionChars
    rw [hsl, List.map_cons, List.flatten_cons, hline]
    cases t with
    | DOMAIN => exact ⟨'D', _, rfl, by decide, by decide⟩
    | DOMAIN_KEYWORD => exact ⟨'D', _, rfl, by decide, by decide⟩
    | DOMAIN_SUFFIX => exact ⟨'D', _, rfl, by decide, by decide⟩
    | IP_CIDR => exact ⟨'I', _, rfl, by decide, by decide⟩
    | IP_CIDR6 => exact ⟨'I', _, rfl, by decide, by decide⟩

/-! ## The second run reconstructs the first run's rule set -/

theorem secondRun_rulesData (raw name now : String)
    (hn : '\n' ∉ name.data) (hw : '\n' ∉ now.data) (hne : anyRules raw = true) :
    rulesDataOf ⟨listArtifactChars name now raw⟩ = finalSortedOf raw := by
  obtain ⟨y, tail, hsec, hy1, hy2⟩ := sectionChars_head (sectionLines_ne_nil hne)
  have hload : loadContent ⟨listArtifactChars name now raw⟩ =
      ⟨sectionChars (finalSortedOf raw)⟩ := by
    unfold loadContent
    rw [show (⟨listArtifactChars name now raw⟩ : String).data =
        listArtifactChars name now raw from rfl]
    rw [show listArtifactChars name now raw =
        generateHeader name now (statsOf (finalRulesOf raw)) ++
          sectionChars (finalSortedOf raw) from rfl]
    rw [hsec, loadChars_header_append name now _ y tail hn hw hy1 hy2]
  unfold rulesDataOf
  rw [hload]
  exact classifyContent_section (finalSortedOf raw)
    (fun t v hv => finalSortedOf_reparse hv)
    (finalSortedOf_nodup raw)
    (sectionLines_chars raw)

end RulesEngine

namespace RulesEngine

/-- C3: running the engine a second time on the text artifact produced by a
first run (regenerated header followed by the rule lines, written only when
rules survive) yields a rule-line section byte-identical to the first run's
rule-line section, for any header name and timestamp free of newlines. -/
theorem c3_second_run_section (raw name now : String)
    (hn : '\n' ∉ name.data) (hw : '\n' ∉ now.data) (hne : anyRules raw = true) :
    ruleSectionOf ⟨listArtifactChars name now raw⟩ = ruleSectionOf raw := by
  unfold ruleSectionOf
  have hfs : finalSortedOf ⟨listArtifactChars name now raw⟩ = finalSortedOf raw := by
    unfold finalSortedOf finalRulesOf
    rw [secondRun_rulesData raw name now hn hw hne]
    exact filterStage_sorted_id (finalSortedOf raw)
      (finalSortedOf_nodup raw) (finalSortedOf_sorted raw)
      (finalSortedOf_nored raw) (finalSortedOf_nocov raw)
  rw [hfs]

theorem c3_second_run_section_witness :
    ('\n' ∉ "Test".data) ∧ ('\n' ∉ "2024-01-01 00:00:00 UTC".data) ∧
      anyRules "DOMAIN,a.com" = true ∧
      ruleSectionOf ⟨listArtifactChars "Test" "2024-01-01 00:00:00 UTC" "DOMAIN,a.com"⟩ =
        ruleSectionOf "DOMAIN,a.com" :=
  ⟨by decide, by decide, by decide,
    c3_second_run_section "DOMAIN,a.com" "Test" "2024-01-01 00:00:00 UTC"
      (by decide) (by decide) (by decide)⟩

end RulesEngine
